import Mathlib

/-!
Verification of the data-splitting / retrieval / metrics core of the
multimodalRecommender evaluation engine.

The JavaScript source is shallowly embedded:
* JS numbers that stay integral are modelled as `Int`/`Nat`; where a
  computation can leave the 53-bit exactly-representable range of IEEE-754
  doubles (the seeded RNG update), rounding to the nearest double is modelled
  explicitly on integers by `fl53`.
* Fractional values (RNG outputs, metric averages) are modelled as `ℚ`.
* JS strings are modelled as `List Char`, JS arrays as `List`,
  JS objects used as counters/maps as insertion-ordered association lists.
* Functions that can `throw` return `Except String _`.
-/

namespace MMR

/-! ## JS primitives -/

/-- `Math.floor` on a rational JS number. -/
def jsFloor (q : ℚ) : Int := Int.floor q

/-- `Math.round` (round half toward +∞, as in JS). -/
def jsRound (q : ℚ) : Int := Int.floor (q + 1/2)

/-- `Array.prototype.slice(s, e)` with the JS rules for negative and
out-of-range indices. -/
def jsSlice (l : List α) (s e : Int) : List α :=
  let n : Int := l.length
  let s' : Int := if s < 0 then max (n + s) 0 else min s n
  let e' : Int := if e < 0 then max (n + e) 0 else min e n
  (l.drop s'.toNat).take (e'.toNat - s'.toNat)

/-- One-argument `Array.prototype.slice(s)`. -/
def jsSliceFrom (l : List α) (s : Int) : List α :=
  jsSlice l s l.length

/-! ## IEEE-754 rounding on integers

The RNG update `state * 1103515245 + 12345` overflows 53 bits, so JS computes
it in double arithmetic.  For an integer-valued double, rounding to the
nearest double is: keep the integer if its magnitude is below `2^53`,
otherwise round to the nearest multiple of `2^(bitlength - 53)`, ties to the
even multiple. -/

/-- Round a natural number to the nearest IEEE-754 double (ties to even). -/
def flNat (n : Nat) : Nat :=
  if n < 2^53 then n
  else
    let sz := Nat.log2 n + 1
    let m := 2^(sz - 53)
    let r := n % m
    let base := n - r
    if 2*r < m then base
    else if m < 2*r then base + m
    else if (base / m) % 2 = 0 then base else base + m

/-- Round an integer to the nearest IEEE-754 double (ties to even). -/
def fl53 (x : Int) : Int :=
  if 0 ≤ x then (flNat x.toNat : Int) else -(flNat (-x).toNat : Int)

theorem flNat_small {n : Nat} (h : n < 2^53) : flNat n = n := by
  unfold flNat
  rw [if_pos h]

theorem fl53_small {x : Int} (h1 : -(2^53) < x) (h2 : x < 2^53) : fl53 x = x := by
  unfold fl53
  by_cases hx : 0 ≤ x
  · rw [if_pos hx, flNat_small (by omega : x.toNat < 2^53)]
    omega
  · rw [if_neg hx, flNat_small (by omega : (-x).toNat < 2^53)]
    omega

theorem log2_ge_of_le {n : Nat} (h : 2^53 ≤ n) : 53 ≤ Nat.log2 n := by
  by_contra hlt
  have h2 : n < 2^(Nat.log2 n + 1) := Nat.lt_log2_self
  have h3 : 2^(Nat.log2 n + 1) ≤ 2^53 := Nat.pow_le_pow_right (by norm_num) (by omega)
  omega

theorem flNat_even {n : Nat} (h : 2^53 ≤ n) : 2 ∣ flNat n := by
  have hlog : 53 ≤ Nat.log2 n := log2_ge_of_le h
  unfold flNat
  rw [if_neg (by omega)]
  have hsz : Nat.log2 n + 1 - 53 = Nat.log2 n - 52 := by omega
  have he : 1 ≤ Nat.log2 n + 1 - 53 := by omega
  have hm2 : 2 ∣ 2^(Nat.log2 n + 1 - 53) := dvd_pow_self 2 (by omega)
  have hbase : 2^(Nat.log2 n + 1 - 53) ∣ n - n % 2^(Nat.log2 n + 1 - 53) := by
    have := Nat.div_add_mod n (2^(Nat.log2 n + 1 - 53))
    exact ⟨n / 2^(Nat.log2 n + 1 - 53), by omega⟩
  have hb2 : 2 ∣ n - n % 2^(Nat.log2 n + 1 - 53) := dvd_trans hm2 hbase
  dsimp only
  split
  · exact hb2
  · split
    · exact Nat.dvd_add hb2 hm2
    · split
      · exact hb2
      · exact Nat.dvd_add hb2 hm2

theorem flNat_lower {n : Nat} (h : 2^53 ≤ n) : 2^53 ≤ flNat n := by
  have hlog : 53 ≤ Nat.log2 n := log2_ge_of_le h
  have hpow : 2^(Nat.log2 n) ≤ n := Nat.log2_self_le (by omega)
  unfold flNat
  rw [if_neg (by omega)]
  dsimp only
  set sz := Nat.log2 n + 1 with hsz
  set m := 2^(sz - 53) with hm
  set r := n % m with hr
  have hrlt : r < m := Nat.mod_lt _ (Nat.pos_pow_of_pos _ (by norm_num))
  have hbase : 2^53 ≤ n - r := by
    rcases Nat.lt_or_ge (Nat.log2 n) 54 with h54 | h54
    · -- log2 n = 53, so m = 2 and n - r ≥ n - 1 ≥ 2^53 (parity via n % 2)
      have hl : Nat.log2 n = 53 := by omega
      have hm2 : m = 2 := by
        rw [hm, hsz, hl]
        norm_num
      have hnm : r = n % 2 := by rw [hr, hm2]
      omega
    · -- log2 n ≥ 54 : n - r > 2^L - 2^(L-52) ≥ 2^(L-1) ≥ 2^53, L = log2 n
      have hms : sz - 53 = Nat.log2 n - 52 := by omega
      have hmeq : m = 2^(Nat.log2 n - 52) := by rw [hm, hms]
      have h1 : 2^(Nat.log2 n - 52) ≤ 2^(Nat.log2 n - 1) :=
        Nat.pow_le_pow_right (by norm_num) (by omega)
      have h2 : 2^(Nat.log2 n - 1) + 2^(Nat.log2 n - 1) = 2^(Nat.log2 n) := by
        have hstep : 2^(Nat.log2 n - 1) * 2 = 2^(Nat.log2 n - 1 + 1) := by
          rw [Nat.pow_succ]
        have hse : Nat.log2 n - 1 + 1 = Nat.log2 n := by omega
        rw [hse] at hstep
        omega
      have h3 : 2^53 ≤ 2^(Nat.log2 n - 1) := Nat.pow_le_pow_right (by norm_num) (by omega)
      omega
  split
  · exact hbase
  · split
    · omega
    · split
      · exact hbase
      · omega

theorem fl53_even {x : Int} (h : 2^53 ≤ x ∨ x ≤ -(2^53)) : 2 ∣ fl53 x := by
  unfold fl53
  rcases h with h | h
  · rw [if_pos (by omega)]
    have := flNat_even (n := x.toNat) (by omega)
    omega
  · rw [if_neg (by omega)]
    have := flNat_even (n := (-x).toNat) (by omega)
    omega

theorem fl53_lower {x : Int} (h : 2^53 ≤ x) : 2^53 ≤ fl53 x := by
  unfold fl53
  rw [if_pos (by omega)]
  have := flNat_lower (n := x.toNat) (by omega)
  omega

theorem fl53_upper {x : Int} (h : x ≤ -(2^53)) : fl53 x ≤ -(2^53) := by
  unfold fl53
  rw [if_neg (by omega)]
  have := flNat_lower (n := (-x).toNat) (by omega)
  omega

/-! ## The seeded RNG (`DataSplitter.createSeededRandom`)

`state = (state * 1103515245 + 12345) & 0x7fffffff; return state / 0x7fffffff`.

The multiplication and addition are double arithmetic (`fl53`).  On the
integer-valued double `X`, `X & 0x7fffffff` is `ToInt32(X)` followed by
masking, which equals `X mod 2^31` (nonnegative); the final division by the
double `0x7fffffff` is exact enough that its rounding cannot reach `1`
(the quotient is at most `1 - 1/(2^31-1)`, far below the midpoint
`1 - 2^-54`), so it is modelled as exact rational division. -/

/-- One RNG state update, with double rounding made explicit. -/
def jsLcgNext (s : Int) : Int :=
  (fl53 (fl53 (s * 1103515245) + 12345)) % 2147483648

/-- The state after `n` updates from `seed`. -/
def lcgState (seed : Int) : Nat → Int
  | 0 => seed
  | n+1 => jsLcgNext (lcgState seed n)

/-- The `n`-th float produced by `createSeededRandom(seed)` (0-indexed). -/
def jsLcgOut (seed : Int) (n : Nat) : ℚ :=
  ((lcgState seed (n+1) : Int) : ℚ) / 2147483647

/-- Core congruence fact: no exactly-representable value of
`s * 1103515245 + 12345` has all of its low 31 bits set. -/
theorem lcg_core (s : Int) (h1 : -(2^53) < 1103515245 * s + 12345)
    (h2 : 1103515245 * s + 12345 < 2^53) :
    (1103515245 * s + 12345) % 2147483648 ≠ 2147483647 := by
  intro hmod
  set x := 1103515245 * s + 12345 with hx
  clear_value x
  have hex : ∃ j, x = 2147483648 * j + 2147483647 := by
    refine ⟨x / 2147483648, ?_⟩
    clear hx h1 h2
    omega
  obtain ⟨j, hj⟩ := hex
  -- 1103515245 * s = 2147483648 * j + 2147471302
  have hs : 1103515245 * s = 2147483648 * j + 2147471302 := by linarith
  -- multiply by the inverse 1857678181 of 1103515245 modulo 2^31:
  -- 1857678181 * 1103515245 = 1 + 2147483648 * 954594553
  have hinv : (1857678181 : Int) * 1103515245 = 1 + 2147483648 * 954594553 := by norm_num
  have hs2 : s = 2147483648 * (1857678181 * j - 954594553 * s + 1857667501) + 230538014 := by
    have h3 : 1857678181 * (1103515245 * s) = 1857678181 * (2147483648 * j + 2147471302) := by
      rw [hs]
    have h4 : (1 + 2147483648 * 954594553) * s
        = 1857678181 * 2147483648 * j + 1857678181 * 2147471302 := by
      calc (1 + 2147483648 * 954594553) * s = 1857678181 * 1103515245 * s := by rw [hinv]
        _ = 1857678181 * (1103515245 * s) := by ring
        _ = 1857678181 * (2147483648 * j + 2147471302) := h3
        _ = 1857678181 * 2147483648 * j + 1857678181 * 2147471302 := by ring
    linarith [h4]
  set u := 1857678181 * j - 954594553 * s + 1857667501 with hu
  clear_value u
  -- hence x = 2369780943956213760 * u + 254402213001035775, which no integer u
  -- can keep inside (-2^53, 2^53)
  have hxu : x = 2369780943956213760 * u + 254402213001035775 := by
    rw [hx, hs2]; ring
  clear hx hu hs hs2 hinv hj hmod
  omega

/-- After any update the state is in `[0, 2^31 - 2]`: the all-ones state
`2^31 - 1` is unreachable. -/
theorem jsLcgNext_range (s : Int) : 0 ≤ jsLcgNext s ∧ jsLcgNext s ≤ 2147483646 := by
  have hnn : 0 ≤ jsLcgNext s := Int.emod_nonneg _ (by norm_num)
  have hlt : jsLcgNext s < 2147483648 := Int.emod_lt_of_pos _ (by norm_num)
  refine ⟨hnn, ?_⟩
  -- show the masked value is never 2147483647
  have hne : jsLcgNext s ≠ 2147483647 := by
    unfold jsLcgNext
    set P := fl53 (s * 1103515245) with hP
    by_cases hsmall : -(2^53) < s * 1103515245 ∧ s * 1103515245 < 2^53
    · -- the product is exact
      have hPx : P = s * 1103515245 := by rw [hP]; exact fl53_small hsmall.1 hsmall.2
      by_cases hsum : -(2^53) < P + 12345 ∧ P + 12345 < 2^53
      · have hX : fl53 (P + 12345) = P + 12345 := fl53_small hsum.1 hsum.2
        rw [hX, hPx]
        have := lcg_core s (by rw [hPx] at hsum; omega) (by rw [hPx] at hsum; omega)
        rw [mul_comm s 1103515245]
        exact this
      · -- the sum rounds, producing an even value
        have hev : 2 ∣ fl53 (P + 12345) := fl53_even (by omega)
        omega
    · -- the product rounds: P is even with |P| ≥ 2^53
      have hPev : 2 ∣ P := by rw [hP]; exact fl53_even (by omega)
      by_cases hsum : -(2^53) < P + 12345 ∧ P + 12345 < 2^53
      · have hX : fl53 (P + 12345) = P + 12345 := fl53_small hsum.1 hsum.2
        rw [hX]
        -- |P| ≥ 2^53 and P + 12345 ∈ (-2^53, 2^53) force P ∈ (-2^53-12345, -2^53]
        have hPbig : 2^53 ≤ P ∨ P ≤ -(2^53) := by
          rcases (by omega : 2^53 ≤ s * 1103515245 ∨ s * 1103515245 ≤ -(2^53)) with h | h
          · exact Or.inl (by rw [hP]; exact fl53_lower h)
          · exact Or.inr (by rw [hP]; exact fl53_upper h)
        omega
      · have hev : 2 ∣ fl53 (P + 12345) := fl53_even (by omega)
        omega
  omega

theorem lcgState_range (seed : Int) (n : Nat) :
    0 ≤ lcgState seed (n+1) ∧ lcgState seed (n+1) ≤ 2147483646 := by
  simpa [lcgState] using jsLcgNext_range (lcgState seed n)

/-- Every output of the seeded RNG is in `[0, 1)`. -/
theorem jsLcgOut_mem (seed : Int) (n : Nat) :
    0 ≤ jsLcgOut seed n ∧ jsLcgOut seed n < 1 := by
  obtain ⟨h0, h1⟩ := lcgState_range seed n
  unfold jsLcgOut
  constructor
  · apply div_nonneg
    · exact_mod_cast h0
    · norm_num
  · rw [div_lt_one (by norm_num)]
    have : ((lcgState seed (n+1) : Int) : ℚ) ≤ 2147483646 := by exact_mod_cast h1
    linarith

/-- C10: For every integer seed, every number produced by the seeded RNG
stream lies in the half-open interval `[0, 1)`: it is ≥ 0 and < 1.  (Because
of the `& 0x7fffffff` mask one might expect the state `0x7fffffff`, whose
quotient is exactly 1, to be reachable; the double rounding of the update
makes it unreachable for every integer seed.) -/
theorem rng_output_range (seed : Int) (n : Nat) :
    0 ≤ jsLcgOut seed n ∧ jsLcgOut seed n < 1 :=
  jsLcgOut_mem seed n

/-! ## Records

A record has an `id` and a `metadata` object mapping field names to scalar
string values.  `extractFieldValue` is the duck-typed accessor: our records
always carry a `metadata` container, so it reads `item.metadata[field]`
(`none` models JS `undefined`). -/

structure Item where
  id : Nat
  metadata : List (List Char × List Char)
deriving DecidableEq

def extractFieldValue (item : Item) (field : List Char) : Option (List Char) :=
  item.metadata.lookup field

/-! ## `DataSplitter.shuffleArray` (Fisher–Yates)

The splitter's RNG is modelled as the stream `r : Nat → ℚ` of its successive
outputs together with a cursor `pos` giving the index of the next unconsumed
draw; `jsLcgOut seed` is the stream of the instance seeded with `seed`. -/

/-- `array[j]` for an arbitrary (possibly negative) index. -/
def jsGetIdx (l : List α) (j : Int) : Option α :=
  if j < 0 then none else l[j.toNat]?

/-- The destructuring swap `[a[i], a[j]] = [a[j], a[i]]`.  When both reads
are in bounds this swaps the two cells.  (An out-of-bounds `j` would make JS
write `undefined` into the array; it is reachable only from an RNG draw
outside `[0,1)`, which `rng_output_range` rules out, and is modelled as a
no-op.) -/
def swapIdx (l : List α) (i : Nat) (j : Int) : List α :=
  match l[i]?, jsGetIdx l j with
  | some a, some b => (l.set i b).set j.toNat a
  | _, _ => l

/-- The loop of `shuffleArray`: `i` counts down from `l.length - 1` to `1`,
`j = Math.floor(rng() * (i + 1))`. -/
def fyLoop (r : Nat → ℚ) : Nat → Nat → List α → List α
  | _, 0, l => l
  | pos, i+1, l => fyLoop r (pos+1) i (swapIdx l (i+1) (jsFloor (r pos * ((i : ℚ) + 2))))

/-- `shuffleArray(array)`: in-place Fisher–Yates; consumes
`array.length - 1` RNG draws. -/
def shuffleArray (r : Nat → ℚ) (pos : Nat) (l : List α) : List α :=
  fyLoop r pos (l.length - 1) l

/-- Swapping the head with the cell at index `m` is a permutation. -/
theorem cons_set_perm (b x : α) : ∀ (t : List α) (m : Nat), t[m]? = some b →
    (b :: t.set m x).Perm (x :: t)
  | y :: t', 0, h => by
    have hy : y = b := by simpa using h
    have e : (y :: t').set 0 x = x :: t' := rfl
    rw [e, ← hy]
    exact List.Perm.swap x y t'
  | y :: t', m+1, h => by
    have h' : t'[m]? = some b := by simpa using h
    have e : (y :: t').set (m+1) x = y :: t'.set m x := rfl
    rw [e]
    exact ((List.Perm.swap y b _).trans
      (List.Perm.cons y (cons_set_perm b x t' m h'))).trans (List.Perm.swap x y t')

/-- Writing `b` at `i` and `a` at `j` where `a`, `b` were the values at `i`,
`j` is a permutation. -/
theorem set_set_perm : ∀ (l : List α) (i j : Nat) (a b : α),
    l[i]? = some a → l[j]? = some b → (((l.set i b).set j a)).Perm l
  | [], i, _, _, _, hi, _ => by simp at hi
  | x :: t, 0, 0, a, b, hi, hj => by
    have ha : x = a := by simpa using hi
    have e : ((x :: t).set 0 b).set 0 a = a :: t := rfl
    rw [e, ha]
  | x :: t, 0, j+1, a, b, hi, hj => by
    have ha : x = a := by simpa using hi
    have hj' : t[j]? = some b := by simpa using hj
    have e : ((x :: t).set 0 b).set (j+1) a = b :: t.set j a := rfl
    rw [e, ha]
    exact cons_set_perm b a t j hj'
  | x :: t, i+1, 0, a, b, hi, hj => by
    have hb : x = b := by simpa using hj
    have hi' : t[i]? = some a := by simpa using hi
    have e : ((x :: t).set (i+1) b).set 0 a = a :: t.set i b := rfl
    rw [e, hb]
    exact cons_set_perm a b t i hi'
  | x :: t, i+1, j+1, a, b, hi, hj => by
    have hi' : t[i]? = some a := by simpa using hi
    have hj' : t[j]? = some b := by simpa using hj
    have e : ((x :: t).set (i+1) b).set (j+1) a = x :: (t.set i b).set j a := rfl
    rw [e]
    exact List.Perm.cons x (set_set_perm t i j a b hi' hj')

theorem swapIdx_perm (l : List α) (i : Nat) (j : Int) : (swapIdx l i j).Perm l := by
  unfold swapIdx
  split
  · rename_i a b hi hj
    have hj' : l[j.toNat]? = some b := by
      unfold jsGetIdx at hj
      by_cases h : j < 0
      · rw [if_pos h] at hj; exact absurd hj (by simp)
      · rwa [if_neg h] at hj
    exact set_set_perm l i j.toNat a b hi hj'
  · exact List.Perm.refl l

theorem fyLoop_perm (r : Nat → ℚ) : ∀ (i pos : Nat) (l : List α), (fyLoop r pos i l).Perm l
  | 0, _, l => List.Perm.refl l
  | i+1, pos, l => by
    unfold fyLoop
    exact (fyLoop_perm r i (pos+1) _).trans (swapIdx_perm l (i+1) _)

/-- `shuffleArray` permutes its input. -/
theorem shuffleArray_perm (r : Nat → ℚ) (pos : Nat) (l : List α) :
    (shuffleArray r pos l).Perm l :=
  fyLoop_perm r (l.length - 1) pos l

theorem shuffleArray_length (r : Nat → ℚ) (pos : Nat) (l : List α) :
    (shuffleArray r pos l).length = l.length :=
  (shuffleArray_perm r pos l).length_eq

/-! ## `DataSplitter.trainTestSplit` -/

structure SplitInfo where
  total_samples : Nat
  train_samples : Int
  test_samples : Int
  test_ratio : ℚ
deriving DecidableEq

structure TTSResult where
  train : List Item
  test : List Item
  split_info : SplitInfo
deriving DecidableEq

/-- `trainTestSplit(data, testSize, shuffle)`.  Note that no validation of
`testSize` happens: any rational ratio is accepted and fed to `slice`. -/
def trainTestSplit (r : Nat → ℚ) (pos : Nat) (data : List Item) (testSize : ℚ)
    (shuffle : Bool) : TTSResult :=
  let dataCopy := if shuffle then shuffleArray r pos data else data
  let testCount : Int := jsFloor ((data.length : ℚ) * testSize)
  { train := jsSliceFrom dataCopy testCount
    test := jsSlice dataCopy 0 testCount
    split_info :=
      { total_samples := data.length
        train_samples := (dataCopy.length : Int) - testCount
        test_samples := testCount
        test_ratio := (testCount : ℚ) / (data.length : ℚ) } }

/-! ## `DataSplitter.kFoldSplit` and `DataSplitter.stratifiedKFoldSplit` -/

structure Fold where
  fold : Nat
  train : List Item
  test : List Item
  train_size : Nat
  test_size : Nat
deriving DecidableEq

structure FoldInfo where
  k : Nat
  total_samples : Nat
  avg_train_size : Int
  avg_test_size : Int
  stratified : Bool
  stratify_field : Option (List Char)
  categories : Option Nat
deriving DecidableEq

structure KFoldResult where
  folds : List Fold
  fold_info : FoldInfo
deriving DecidableEq

/-- Group records by the value of `field`, in first-occurrence order of the
categories (a JS `Map`), keeping each category's records in data order. -/
def pushGroup (key : Option (List Char)) (it : Item) :
    List (Option (List Char) × List Item) → List (Option (List Char) × List Item)
  | [] => [(key, [it])]
  | (k₀, items) :: t =>
    if k₀ = key then (k₀, items ++ [it]) :: t else (k₀, items) :: pushGroup key it t

def groupByField (data : List Item) (field : List Char) :
    List (Option (List Char) × List Item) :=
  data.foldl (fun gs it => pushGroup (extractFieldValue it field) it gs) []

/-- The `k` slices of one shuffled category: fold `i` receives
`items.slice(i*foldSize, i === k-1 ? items.length : (i+1)*foldSize)` as test
and the two outer slices as train. -/
def catSlices (items : List Item) (k i : Nat) : List Item × List Item :=
  let foldSize := items.length / k
  let s := i * foldSize
  let e : Int := if i = k - 1 then (items.length : Int) else (s + foldSize : Nat)
  (jsSlice items s e, jsSlice items 0 s ++ jsSliceFrom items e)

/-- `stratifiedKFoldSplit(data, k, stratifyField)`: groups by category,
shuffles each category (consuming the RNG stream category by category) and
pushes the category's `i`-th test/train slices onto fold `i`. -/
def stratifiedKFoldSplit (r : Nat → ℚ) (pos : Nat) (data : List Item) (k : Nat)
    (field : List Char) : KFoldResult :=
  let groups := groupByField data field
  let start : List (List Item × List Item) × Nat :=
    ((List.range k).map (fun _ => ([], [])), pos)
  let result := groups.foldl (fun acc g =>
    let shuffled := shuffleArray r acc.2 g.2
    (((List.range k).zip acc.1).map (fun p =>
        let sl := catSlices shuffled k p.1
        (p.2.1 ++ sl.1, p.2.2 ++ sl.2)),
     acc.2 + (g.2.length - 1))) start
  let folds := ((List.range k).zip result.1).map (fun p =>
    { fold := p.1 + 1
      train := p.2.2
      test := p.2.1
      train_size := p.2.2.length
      test_size := p.2.1.length })
  { folds := folds
    fold_info :=
      { k := k
        total_samples := data.length
        avg_train_size := jsRound (((folds.map (·.train_size)).sum : ℚ) / (k : ℚ))
        avg_test_size := jsRound (((folds.map (·.test_size)).sum : ℚ) / (k : ℚ))
        stratified := true
        stratify_field := some field
        categories := some groups.length } }

/-- The non-stratified body of `kFoldSplit`: slices `dataCopy` into `k`
contiguous test segments of size `foldSize = floor(n / k)`; the last fold's
test segment runs to the end of the data. -/
def kFoldPlain (dataCopy : List Item) (n k : Nat) : KFoldResult :=
  let foldSize := n / k
  let folds := (List.range k).map (fun i =>
    let s := i * foldSize
    let e : Int := if i = k - 1 then (n : Int) else ((s + foldSize : Nat) : Int)
    let testFold := jsSlice dataCopy s e
    let trainFold := jsSlice dataCopy 0 s ++ jsSliceFrom dataCopy e
    { fold := i + 1
      train := trainFold
      test := testFold
      train_size := trainFold.length
      test_size := testFold.length })
  { folds := folds
    fold_info :=
      { k := k
        total_samples := n
        avg_train_size := jsRound (((folds.map (·.train_size)).sum : ℚ) / (k : ℚ))
        avg_test_size := jsRound (((folds.map (·.test_size)).sum : ℚ) / (k : ℚ))
        stratified := false
        stratify_field := none
        categories := none } }

/-- `kFoldSplit(data, k, shuffle, stratify)`: validates `k`, shuffles once,
then either delegates to the stratified variant or slices the shuffled copy
into `k` contiguous test segments. -/
def kFoldSplit (r : Nat → ℚ) (pos : Nat) (data : List Item) (k : Nat)
    (shuffle : Bool) (stratify : Option (List Char)) : Except String KFoldResult :=
  if k < 2 then .error "k must be at least 2"
  else if data.length < k then .error "k cannot be larger than dataset size"
  else
    let dataCopy := if shuffle then shuffleArray r pos data else data
    let pos' := if shuffle then pos + (data.length - 1) else pos
    match stratify with
    | some field => .ok (stratifiedKFoldSplit r pos' dataCopy k field)
    | none => .ok (kFoldPlain dataCopy data.length k)

/-! ### Slice arithmetic -/

theorem jsSlice_nat (l : List α) (a b : Nat) (hb : b ≤ l.length) :
    jsSlice l (a : Int) (b : Int) = (l.drop a).take (b - a) := by
  unfold jsSlice
  dsimp only
  rw [if_neg (by omega), if_neg (by omega)]
  have hs : (min (a : Int) (l.length : Int)).toNat = min a l.length := by omega
  have he : (min (b : Int) (l.length : Int)).toNat = b := by omega
  rw [hs, he]
  rcases le_or_lt a l.length with hle | hlt
  · rw [min_eq_left hle]
  · rw [min_eq_right (by omega), List.drop_length,
      List.drop_eq_nil_of_le (by omega), List.take_nil, List.take_nil]

theorem jsSliceFrom_nat (l : List α) (a : Nat) : jsSliceFrom l (a : Int) = l.drop a := by
  unfold jsSliceFrom
  rw [jsSlice_nat l a l.length (le_refl _)]
  exact List.take_of_length_le (by rw [List.length_drop])

theorem jsSlice_zero_ge (l : List α) (c : Int) (hc : (l.length : Int) ≤ c) :
    jsSlice l 0 c = l := by
  unfold jsSlice
  dsimp only
  rw [if_neg (by omega), if_neg (by omega)]
  have h0 : (min (0 : Int) (l.length : Int)).toNat = 0 := by omega
  have he : (min c (l.length : Int)).toNat = l.length := by omega
  rw [h0, he, List.drop_zero, Nat.sub_zero, List.take_length]

theorem jsSliceFrom_ge (l : List α) (c : Int) (hc : (l.length : Int) ≤ c) :
    jsSliceFrom l c = [] := by
  unfold jsSliceFrom jsSlice
  dsimp only
  rw [if_neg (by omega), if_neg (by omega)]
  have hs : (min c (l.length : Int)).toNat = l.length := by omega
  rw [hs, List.drop_length, List.take_nil]

/-- Concatenating the `m` contiguous blocks of width `f` recovers the first
`m * f` elements. -/
theorem flatten_take_slices (l : List α) (f : Nat) : ∀ m : Nat,
    ((List.range m).map (fun i => (l.drop (i * f)).take f)).flatten = l.take (m * f)
  | 0 => by simp
  | m+1 => by
    rw [List.range_succ, List.map_append, List.flatten_append,
      flatten_take_slices l f m]
    simp only [List.map_cons, List.map_nil, List.flatten_cons, List.flatten_nil,
      List.append_nil]
    rw [← List.take_add]
    congr 1
    ring

/-- `mid ++ (A ++ B)` is a permutation of `A ++ (mid ++ B)`. -/
theorem middle_swap_perm (mid A B : List α) :
    (mid ++ (A ++ B)).Perm (A ++ (mid ++ B)) := by
  rw [← List.append_assoc, ← List.append_assoc]
  exact List.Perm.append_right B (List.perm_append_comm)

/-- Everything C2 asserts about the non-stratified k-fold split, stated for
the shuffled copy `dc` of an `n`-record dataset. -/
theorem kFoldPlain_spec (dc : List Item) (n k : Nat) (hlen : dc.length = n)
    (h2 : 1 ≤ k) :
    (kFoldPlain dc n k).folds.length = k ∧
    (kFoldPlain dc n k).folds.map (·.fold) = (List.range k).map (· + 1) ∧
    (kFoldPlain dc n k).folds.map (·.test_size) = (List.range k).map (fun i =>
      if i = k - 1 then n - (k - 1) * (n / k) else n / k) ∧
    ((kFoldPlain dc n k).folds.map (·.test)).flatten = dc ∧
    (∀ fd ∈ (kFoldPlain dc n k).folds, ((fd.test ++ fd.train)).Perm dc) := by
  have hk0 : 0 < k := by omega
  have hkf : k * (n / k) ≤ n := by
    rw [Nat.mul_comm]
    exact Nat.div_mul_le_self n k
  have hstep : ∀ i, i < k → i * (n / k) + n / k ≤ n := by
    intro i hi
    have h1 : (i + 1) * (n / k) ≤ k * (n / k) := Nat.mul_le_mul_right _ hi
    have hr : i * (n / k) + n / k = (i + 1) * (n / k) := by ring
    rw [hr]
    exact le_trans h1 hkf
  have hmono : ∀ i, i ≤ k → i * (n / k) ≤ n := by
    intro i hi
    exact le_trans (Nat.mul_le_mul_right _ hi) hkf
  have hcast : ∀ i : Nat, (if i = k - 1 then (n : Int) else ((i * (n / k) + n / k : Nat) : Int))
      = ((if i = k - 1 then n else i * (n / k) + n / k : Nat) : Int) := by
    intro i
    by_cases h : i = k - 1 <;> simp [h]
  have htest : ∀ i, i < k → jsSlice dc ((i * (n / k) : Nat) : Int)
      (if i = k - 1 then (n : Int) else ((i * (n / k) + n / k : Nat) : Int))
      = (dc.drop (i * (n / k))).take ((if i = k - 1 then n else i * (n / k) + n / k)
          - i * (n / k)) := by
    intro i hi
    rw [hcast i]
    apply jsSlice_nat
    rw [hlen]
    by_cases h : i = k - 1
    · rw [if_pos h]
    · rw [if_neg h]
      exact hstep i hi
  have htrain : ∀ i, i < k → jsSlice dc 0 ((i * (n / k) : Nat) : Int) ++ jsSliceFrom dc
      (if i = k - 1 then (n : Int) else ((i * (n / k) + n / k : Nat) : Int))
      = dc.take (i * (n / k)) ++ dc.drop (if i = k - 1 then n else i * (n / k) + n / k) := by
    intro i hi
    rw [hcast i, jsSliceFrom_nat]
    have h0 : jsSlice dc ((0 : Nat) : Int) ((i * (n / k) : Nat) : Int)
        = dc.take (i * (n / k)) := by
      rw [jsSlice_nat dc 0 (i * (n / k)) (by rw [hlen]; exact hmono i (le_of_lt hi))]
      simp
    simpa using congrArg (· ++ dc.drop (if i = k - 1 then n else i * (n / k) + n / k)) h0
  refine ⟨by simp [kFoldPlain], ?_, ?_, ?_, ?_⟩
  · simp only [kFoldPlain, List.map_map]
    rfl
  · -- test sizes
    simp only [kFoldPlain, List.map_map]
    apply List.map_congr_left
    intro i hi
    have hik : i < k := List.mem_range.mp hi
    simp only [Function.comp]
    rw [htest i hik]
    by_cases h : i = k - 1
    · subst h
      rw [if_pos rfl, if_pos rfl, List.length_take, List.length_drop, hlen, min_self]
    · rw [if_neg h, if_neg h, List.length_take, List.length_drop, hlen,
        Nat.add_sub_cancel_left, min_eq_left]
      exact Nat.le_sub_of_add_le (by rw [Nat.add_comm]; exact hstep i hik)
  · -- the test segments concatenate back to dc
    simp only [kFoldPlain, List.map_map]
    have hsplit : List.range k = List.range (k - 1) ++ [k - 1] := by
      have hkk : k = (k - 1) + 1 := by omega
      conv_lhs => rw [hkk]
      rw [List.range_succ]
    rw [hsplit, List.map_append, List.flatten_append]
    rw [List.map_congr_left (fun i hi => by
      have hik : i < k - 1 := List.mem_range.mp hi
      show _ = (dc.drop (i * (n / k))).take (n / k)
      simp only [Function.comp]
      rw [htest i (by omega), if_neg (by omega)]
      rw [Nat.add_sub_cancel_left])]
    rw [flatten_take_slices]
    simp only [List.map_cons, List.map_nil, List.flatten_cons, List.flatten_nil,
      List.append_nil, Function.comp, if_true, eq_self_iff_true]
    have hlastslice : jsSlice dc (((k - 1) * (n / k) : Nat) : Int) ((n : Nat) : Int)
        = (dc.drop ((k - 1) * (n / k))).take (n - (k - 1) * (n / k)) :=
      jsSlice_nat dc ((k - 1) * (n / k)) n (by rw [hlen])
    rw [hlastslice]
    have hlast : (dc.drop ((k - 1) * (n / k))).take (n - (k - 1) * (n / k))
        = dc.drop ((k - 1) * (n / k)) := by
      apply List.take_of_length_le
      rw [List.length_drop, hlen]
    rw [hlast, List.take_append_drop]
  · -- test ++ train is a permutation of dc
    intro fd hfd
    simp only [kFoldPlain, List.mem_map, List.mem_range] at hfd
    obtain ⟨i, hik, rfl⟩ := hfd
    simp only
    rw [htest i hik, htrain i hik]
    have hse : i * (n / k) ≤ (if i = k - 1 then n else i * (n / k) + n / k) := by
      by_cases h : i = k - 1
      · rw [if_pos h]
        exact hmono i (le_of_lt hik)
      · rw [if_neg h]
        exact Nat.le_add_right _ _
    have hdecomp : dc = dc.take (i * (n / k)) ++
        ((dc.drop (i * (n / k))).take ((if i = k - 1 then n else i * (n / k) + n / k)
            - i * (n / k))
          ++ dc.drop (if i = k - 1 then n else i * (n / k) + n / k)) := by
      have h1 := List.take_append_drop ((if i = k - 1 then n else i * (n / k) + n / k)
        - i * (n / k)) (dc.drop (i * (n / k)))
      have hdd : (dc.drop (i * (n / k))).drop ((if i = k - 1 then n else i * (n / k) + n / k)
          - i * (n / k)) = dc.drop (if i = k - 1 then n else i * (n / k) + n / k) := by
        rw [List.drop_drop, Nat.add_sub_cancel' hse]
      rw [hdd] at h1
      rw [h1, List.take_append_drop]
    have hperm := middle_swap_perm
      ((dc.drop (i * (n / k))).take ((if i = k - 1 then n else i * (n / k) + n / k)
        - i * (n / k)))
      (dc.take (i * (n / k)))
      (dc.drop (if i = k - 1 then n else i * (n / k) + n / k))
    rw [← hdecomp] at hperm
    exact hperm

/-- With valid `k`, `kFoldSplit` with no stratification returns the plain
split of the (possibly shuffled) copy. -/
theorem kFoldSplit_eq_plain (r : Nat → ℚ) (pos : Nat) (data : List Item) (k : Nat)
    (shuffle : Bool) (h2 : 2 ≤ k) (hk : k ≤ data.length) :
    kFoldSplit r pos data k shuffle none
      = .ok (kFoldPlain (if shuffle then shuffleArray r pos data else data)
          data.length k) := by
  unfold kFoldSplit
  rw [if_neg (by omega), if_neg (by omega)]

theorem dataCopy_perm (r : Nat → ℚ) (pos : Nat) (data : List Item) (shuffle : Bool) :
    (if shuffle then shuffleArray r pos data else data).Perm data := by
  cases shuffle
  · simp
  · simpa using shuffleArray_perm r pos data

/-- C2: For every dataset of size N and every k with 2 ≤ k ≤ N, the
non-stratified `kFoldSplit` returns exactly k folds; each fold before the
last has test size `floor(N/k)` and the last has `N - (k-1) * floor(N/k)`;
the test sets together contain every record exactly once (their
concatenation is a permutation of the dataset, hence pairwise disjoint when
records are distinct); and each fold's train set is the complement of its
test set (test ++ train is a permutation of the dataset). -/
theorem kfold_partition_and_sizes (r : Nat → ℚ) (pos : Nat) (data : List Item)
    (k : Nat) (shuffle : Bool) (h2 : 2 ≤ k) (hk : k ≤ data.length) :
    ∃ res : KFoldResult,
      kFoldSplit r pos data k shuffle none = .ok res ∧
      res.folds.length = k ∧
      res.folds.map (·.test_size) = (List.range k).map (fun i =>
        if i = k - 1 then data.length - (k - 1) * (data.length / k)
        else data.length / k) ∧
      ((res.folds.map (·.test)).flatten).Perm data ∧
      (∀ fd ∈ res.folds, ((fd.test ++ fd.train)).Perm data) ∧
      (data.Nodup → (res.folds.map (·.test)).Pairwise List.Disjoint) := by
  have hdc := dataCopy_perm r pos data shuffle
  obtain ⟨hlen, _hfold, hsizes, hflat, hcompl⟩ :=
    kFoldPlain_spec (if shuffle then shuffleArray r pos data else data)
      data.length k hdc.length_eq (by omega)
  refine ⟨_, kFoldSplit_eq_plain r pos data k shuffle h2 hk, hlen, hsizes, ?_, ?_, ?_⟩
  · rw [hflat]
    exact hdc
  · intro fd hfd
    exact (hcompl fd hfd).trans hdc
  · intro hnd
    have hnodup : ((kFoldPlain (if shuffle then shuffleArray r pos data else data)
        data.length k).folds.map (·.test)).flatten.Nodup := by
      rw [hflat]
      exact hdc.symm.nodup hnd
    exact (List.nodup_flatten.mp hnodup).2

theorem kfold_partition_and_sizes_witness :
    2 ≤ 2 ∧ (2 : Nat) ≤ [Item.mk 1 [], Item.mk 2 []].length ∧
    (∃ res : KFoldResult,
      kFoldSplit (fun _ => 0) 0 [Item.mk 1 [], Item.mk 2 []] 2 false none = .ok res ∧
      res.folds.length = 2 ∧
      res.folds.map (·.test_size) = (List.range 2).map (fun i =>
        if i = 2 - 1 then [Item.mk 1 [], Item.mk 2 []].length
          - (2 - 1) * ([Item.mk 1 [], Item.mk 2 []].length / 2)
        else [Item.mk 1 [], Item.mk 2 []].length / 2) ∧
      ((res.folds.map (·.test)).flatten).Perm [Item.mk 1 [], Item.mk 2 []] ∧
      (∀ fd ∈ res.folds, ((fd.test ++ fd.train)).Perm [Item.mk 1 [], Item.mk 2 []]) ∧
      ([Item.mk 1 [], Item.mk 2 []].Nodup →
        (res.folds.map (·.test)).Pairwise List.Disjoint)) :=
  ⟨by decide, by decide,
    kfold_partition_and_sizes (fun _ => 0) 0 [Item.mk 1 [], Item.mk 2 []] 2 false
      (by decide) (by decide)⟩

/-- `trainTestSplit` performs no ratio validation: for any ratio ≥ 1 it
simply computes a partition in which the whole (shuffled) dataset is the
test set and the train set is empty. -/
theorem trainTestSplit_ratio_ge_one (r : Nat → ℚ) (pos : Nat) (data : List Item)
    (testSize : ℚ) (shuffle : Bool) (h1 : 1 ≤ testSize) :
    ((trainTestSplit r pos data testSize shuffle).test).Perm data ∧
    (trainTestSplit r pos data testSize shuffle).train = [] := by
  have hdc := dataCopy_perm r pos data shuffle
  have hlen := hdc.length_eq
  have htc : (data.length : Int) ≤ jsFloor ((data.length : ℚ) * testSize) := by
    unfold jsFloor
    rw [Int.le_floor]
    push_cast
    nlinarith [Nat.cast_nonneg (α := ℚ) data.length]
  constructor
  · unfold trainTestSplit
    dsimp only
    rw [jsSlice_zero_ge _ _ (by rw [hlen]; exact htc)]
    exact hdc
  · unfold trainTestSplit
    dsimp only
    rw [jsSliceFrom_ge _ _ (by rw [hlen]; exact htc)]

/-- C7 (counterexample): a ratio of `2`, far outside `(0,1)`, is accepted by
`trainTestSplit` without any `ConfigurationError` — the source contains no
ratio validation at all — and a partition IS computed: the whole dataset
lands in `test` and `train` is empty. -/
theorem split_ratio_counterexample :
    (trainTestSplit (fun _ => 0) 0 [Item.mk 0 []] 2 false).test = [Item.mk 0 []] ∧
    (trainTestSplit (fun _ => 0) 0 [Item.mk 0 []] 2 false).train = [] := by
  have h := trainTestSplit_ratio_ge_one (fun _ => 0) 0 [Item.mk 0 []] 2 false (by norm_num)
  exact ⟨List.perm_singleton.mp h.1, h.2⟩

/-- C7 (amended): split ratios are not validated.  `trainTestSplit` (and
`stratifiedSplit`) accept every ratio; with a ratio ≥ 1, `trainTestSplit`
returns every record in `test` and an empty `train` instead of failing
fast with a `ConfigurationError` (no such error exists in the code; only
`kFoldSplit`'s `k` is validated, thrown as a plain `Error`). -/
theorem split_ratio_not_validated (r : Nat → ℚ) (pos : Nat) (data : List Item)
    (testSize : ℚ) (shuffle : Bool) (h1 : 1 ≤ testSize) :
    ((trainTestSplit r pos data testSize shuffle).test).Perm data ∧
    (trainTestSplit r pos data testSize shuffle).train = [] :=
  trainTestSplit_ratio_ge_one r pos data testSize shuffle h1

theorem split_ratio_not_validated_witness :
    (1 : ℚ) ≤ 2 ∧
    (((trainTestSplit (fun _ => 0) 0 [Item.mk 0 []] 2 true).test).Perm [Item.mk 0 []] ∧
      (trainTestSplit (fun _ => 0) 0 [Item.mk 0 []] 2 true).train = []) :=
  ⟨by norm_num, split_ratio_not_validated (fun _ => 0) 0 [Item.mk 0 []] 2 true (by norm_num)⟩

/-! ### The stratified split: per-category slice lemmas -/

theorem jsSlice_sublist (l : List α) (s e : Int) : (jsSlice l s e).Sublist l := by
  unfold jsSlice
  exact (List.take_sublist _ _).trans (List.drop_sublist _ _)

/-- Two maps over `range m` that agree as lists agree at each index. -/
theorem map_range_eq_apply {β : Type} {f g : Nat → β} {m i : Nat}
    (h : (List.range m).map f = (List.range m).map g) (hi : i < m) : f i = g i := by
  have h1 : ((List.range m).map f)[i]? = ((List.range m).map g)[i]? := by rw [h]
  rw [List.getElem?_map, List.getElem?_map, List.getElem?_range hi] at h1
  simpa using h1

/-- The folds of the plain split are exactly the `catSlices` of the data. -/
theorem kFoldPlain_folds_eq_catSlices (items : List Item) (k : Nat) :
    (kFoldPlain items items.length k).folds.map (·.test)
        = (List.range k).map (fun i => (catSlices items k i).1) ∧
    (kFoldPlain items items.length k).folds.map (·.test_size)
        = (List.range k).map (fun i => ((catSlices items k i).1).length) := by
  constructor <;>
    · simp only [kFoldPlain, catSlices, List.map_map]
      rfl

/-- The `i`-th test slice of one category of `m` records has
`floor(m/k)` records, except the last (`i = k-1`), which has
`m - (k-1) * floor(m/k)`. -/
theorem catSlices_test_length (items : List Item) (k i : Nat) (hk : 1 ≤ k) (hi : i < k) :
    ((catSlices items k i).1).length = if i = k - 1
      then items.length - (k - 1) * (items.length / k) else items.length / k := by
  obtain ⟨-, -, hsizes, -, -⟩ := kFoldPlain_spec items items.length k rfl hk
  obtain ⟨-, hts⟩ := kFoldPlain_folds_eq_catSlices items k
  rw [hts] at hsizes
  exact map_range_eq_apply hsizes hi

/-- The `k` test slices of one category concatenate back to the category. -/
theorem catSlices_flatten (items : List Item) (k : Nat) (hk : 1 ≤ k) :
    ((List.range k).map (fun i => (catSlices items k i).1)).flatten = items := by
  obtain ⟨-, -, -, hflat, -⟩ := kFoldPlain_spec items items.length k rfl hk
  obtain ⟨hts, -⟩ := kFoldPlain_folds_eq_catSlices items k
  rw [hts] at hflat
  exact hflat

/-! ### `groupByField` invariants -/

theorem pushGroup_members (key : Option (List Char)) (it : Item) (field : List Char)
    (hit : extractFieldValue it field = key) :
    ∀ gs : List (Option (List Char) × List Item),
      (∀ g ∈ gs, ∀ x ∈ g.2, extractFieldValue x field = g.1) →
      (∀ g ∈ pushGroup key it gs, ∀ x ∈ g.2, extractFieldValue x field = g.1)
  | [], _ => by
    intro g hg x hx
    simp only [pushGroup, List.mem_singleton] at hg
    subst hg
    simp only [List.mem_singleton] at hx
    subst hx
    exact hit
  | (k₀, items) :: t, hmem => by
    intro g hg x hx
    unfold pushGroup at hg
    by_cases hk : k₀ = key
    · rw [if_pos hk] at hg
      rcases List.mem_cons.mp hg with hg | hg
      · subst hg
        rcases List.mem_append.mp hx with hx | hx
        · exact hmem (k₀, items) (List.mem_cons_self _ _) x hx
        · simp only [List.mem_singleton] at hx
          subst hx
          rw [hit, hk]
      · exact hmem g (List.mem_cons_of_mem _ hg) x hx
    · rw [if_neg hk] at hg
      rcases List.mem_cons.mp hg with hg | hg
      · subst hg
        exact hmem (k₀, items) (List.mem_cons_self _ _) x hx
      · exact pushGroup_members key it field hit t
          (fun g hg x hx => hmem g (List.mem_cons_of_mem _ hg) x hx) g hg x hx

theorem groupByField_members (data : List Item) (field : List Char) :
    ∀ g ∈ groupByField data field, ∀ x ∈ g.2, extractFieldValue x field = g.1 := by
  unfold groupByField
  suffices h : ∀ gs0, (∀ g ∈ gs0, ∀ x ∈ g.2, extractFieldValue x field = g.1) →
      ∀ g ∈ data.foldl (fun gs it => pushGroup (extractFieldValue it field) it gs) gs0,
        ∀ x ∈ g.2, extractFieldValue x field = g.1 by
    exact h [] (by simp)
  induction data with
  | nil => intro gs0 h0; simpa using h0
  | cons it t ih =>
    intro gs0 h0
    exact ih _ (pushGroup_members _ it field rfl gs0 h0)

theorem pushGroup_keys (key : Option (List Char)) (it : Item) :
    ∀ gs : List (Option (List Char) × List Item),
      (pushGroup key it gs).map Prod.fst
        = if key ∈ gs.map Prod.fst then gs.map Prod.fst else gs.map Prod.fst ++ [key]
  | [] => by simp [pushGroup]
  | (k₀, items) :: t => by
    unfold pushGroup
    by_cases hk : k₀ = key
    · rw [if_pos hk]
      have : key ∈ ((k₀, items) :: t).map Prod.fst := by simp [hk.symm]
      rw [if_pos this]
      simp
    · rw [if_neg hk]
      simp only [List.map_cons]
      rw [pushGroup_keys key it t]
      by_cases hmem : key ∈ t.map Prod.fst
      · rw [if_pos hmem, if_pos (by simp [hmem])]
      · rw [if_neg hmem, if_neg (by
          simp only [List.map_cons, List.mem_cons]
          push_neg
          exact ⟨fun h => hk h.symm, hmem⟩)]
        simp

theorem pushGroup_keys_nodup (key : Option (List Char)) (it : Item)
    (gs : List (Option (List Char) × List Item)) (h : (gs.map Prod.fst).Nodup) :
    ((pushGroup key it gs).map Prod.fst).Nodup := by
  rw [pushGroup_keys]
  by_cases hmem : key ∈ gs.map Prod.fst
  · rwa [if_pos hmem]
  · rw [if_neg hmem]
    exact ((List.perm_append_singleton key _).nodup_iff).mpr (by
      exact List.nodup_cons.mpr ⟨hmem, h⟩)

theorem groupByField_keys_nodup (data : List Item) (field : List Char) :
    ((groupByField data field).map Prod.fst).Nodup := by
  unfold groupByField
  suffices h : ∀ gs0, (gs0.map Prod.fst).Nodup →
      ((data.foldl (fun gs it => pushGroup (extractFieldValue it field) it gs) gs0).map
        Prod.fst).Nodup by
    exact h [] (by simp)
  induction data with
  | nil => intro gs0 h0; simpa using h0
  | cons it t ih =>
    intro gs0 h0
    exact ih _ (pushGroup_keys_nodup _ it gs0 h0)

theorem pushGroup_flatten (key : Option (List Char)) (it : Item) :
    ∀ gs : List (Option (List Char) × List Item),
      (((pushGroup key it gs).map Prod.snd).flatten).Perm
        ((gs.map Prod.snd).flatten ++ [it])
  | [] => by simp [pushGroup]
  | (k₀, items) :: t => by
    unfold pushGroup
    by_cases hk : k₀ = key
    · rw [if_pos hk]
      simp only [List.map_cons, List.flatten_cons]
      rw [List.append_assoc, List.append_assoc]
      exact List.Perm.append_left items (List.perm_append_comm)
    · rw [if_neg hk]
      simp only [List.map_cons, List.flatten_cons]
      rw [List.append_assoc]
      exact List.Perm.append_left items (pushGroup_flatten key it t)

theorem groupByField_flatten (data : List Item) (field : List Char) :
    (((groupByField data field).map Prod.snd).flatten).Perm data := by
  unfold groupByField
  suffices h : ∀ gs0, (((data.foldl (fun gs it => pushGroup (extractFieldValue it field) it gs)
      gs0).map Prod.snd).flatten).Perm ((gs0.map Prod.snd).flatten ++ data) by
    simpa using h []
  induction data with
  | nil => intro gs0; simp
  | cons it t ih =>
    intro gs0
    refine (ih _).trans ?_
    have h1 := pushGroup_flatten (extractFieldValue it field) it gs0
    refine (List.Perm.append_right t h1).trans ?_
    rw [List.append_assoc]
    exact List.Perm.refl _

/-! ### The stratified fold loop -/

/-- The per-category shuffles of the stratified split, with the RNG cursor
threaded through the categories in order. -/
def shuffleGroups (r : Nat → ℚ) : Nat → List (Option (List Char) × List Item)
    → List (Option (List Char) × List Item)
  | _, [] => []
  | pos, g :: t =>
    (g.1, shuffleArray r pos g.2) :: shuffleGroups r (pos + (g.2.length - 1)) t

theorem shuffleGroups_forall (r : Nat → ℚ) : ∀ (pos : Nat) gs,
    List.Forall₂ (fun g g' => g.1 = g'.1 ∧ (g'.2).Perm g.2) gs (shuffleGroups r pos gs)
  | _, [] => List.Forall₂.nil
  | pos, g :: t =>
    List.Forall₂.cons ⟨rfl, shuffleArray_perm r pos g.2⟩ (shuffleGroups_forall r _ t)

theorem zip_range_map {β γ : Type} (m : Nat) (l : List β) (F : Nat × β → γ) :
    (List.range m).zip (((List.range m).zip l).map F)
      = ((List.range m).zip l).map (fun p => (p.1, F p)) := by
  apply List.ext_getElem
  · simp only [List.length_zip, List.length_map, List.length_range]
    omega
  · intro i h1 h2
    simp [List.getElem_zip]

theorem zip_range_map_fn {β : Type} (m : Nat) (f : Nat → β) :
    (List.range m).zip ((List.range m).map f)
      = (List.range m).map (fun i => (i, f i)) := by
  apply List.ext_getElem
  · simp only [List.length_zip, List.length_map, List.length_range]
    omega
  · intro i h1 h2
    simp [List.getElem_zip]

/-- Invariant of the category loop of `stratifiedKFoldSplit`: after folding
over the remaining categories, fold `i` holds its accumulated lists extended
with the `i`-th slice of every remaining (shuffled) category. -/
theorem strat_fold_inv (r : Nat → ℚ) (k : Nat) :
    ∀ (gs : List (Option (List Char) × List Item))
      (acc : List (List Item × List Item)) (pos : Nat), acc.length = k →
      (gs.foldl (fun acc g =>
        (((List.range k).zip acc.1).map (fun p =>
            (p.2.1 ++ (catSlices (shuffleArray r acc.2 g.2) k p.1).1,
             p.2.2 ++ (catSlices (shuffleArray r acc.2 g.2) k p.1).2)),
         acc.2 + (g.2.length - 1))) (acc, pos)).1
      = ((List.range k).zip acc).map (fun p =>
          (p.2.1 ++ ((shuffleGroups r pos gs).map
              (fun g => (catSlices g.2 k p.1).1)).flatten,
           p.2.2 ++ ((shuffleGroups r pos gs).map
              (fun g => (catSlices g.2 k p.1).2)).flatten))
  | [], acc, pos, hlen => by
    simp only [List.foldl_nil, shuffleGroups, List.map_nil, List.flatten_nil,
      List.append_nil]
    have : ((List.range k).zip acc).map (fun p => (p.2.1, p.2.2))
        = ((List.range k).zip acc).map Prod.snd := by
      apply List.map_congr_left
      intro p _
      rfl
    rw [this]
    exact (List.map_snd_zip _ _ (by simp [hlen])).symm
  | g :: t, acc, pos, hlen => by
    rw [List.foldl_cons]
    rw [strat_fold_inv r k t _ _ (by
      simp only [List.length_map, List.length_zip, List.length_range, hlen]
      omega)]
    rw [zip_range_map, List.map_map]
    simp only [shuffleGroups, List.map_cons, List.flatten_cons]
    apply List.map_congr_left
    intro p _
    simp only [Function.comp]
    rw [List.append_assoc, List.append_assoc]

/-- The folds of `stratifiedKFoldSplit`: fold `i`'s test set is the
concatenation of the `i`-th test slice of every shuffled category. -/
theorem stratifiedKFold_tests (r : Nat → ℚ) (pos : Nat) (data : List Item)
    (k : Nat) (field : List Char) :
    (stratifiedKFoldSplit r pos data k field).folds.length = k ∧
    (stratifiedKFoldSplit r pos data k field).folds.map (·.test)
      = (List.range k).map (fun i =>
          ((shuffleGroups r pos (groupByField data field)).map
            (fun g => (catSlices g.2 k i).1)).flatten) := by
  unfold stratifiedKFoldSplit
  dsimp only
  rw [strat_fold_inv r k (groupByField data field) _ pos (by simp)]
  rw [zip_range_map_fn, List.map_map, zip_range_map_fn, List.map_map]
  constructor
  · simp
  · rw [List.map_map]
    apply List.map_congr_left
    intro i _
    simp only [Function.comp, List.nil_append]

/-! ### Per-category counting in the stratified folds -/

theorem catSlices_fst_sublist (items : List Item) (k i : Nat) :
    ((catSlices items k i).1).Sublist items := by
  unfold catSlices
  dsimp only
  exact jsSlice_sublist _ _ _

/-- Categories other than `c` contribute nothing to the count of `c`. -/
theorem strat_count_zero (r : Nat → ℚ) (k : Nat) (field : List Char)
    (c : Option (List Char)) :
    ∀ (gs : List (Option (List Char) × List Item)) (pos i : Nat),
      (∀ g ∈ gs, ∀ x ∈ g.2, extractFieldValue x field = g.1) →
      c ∉ gs.map Prod.fst →
      ((shuffleGroups r pos gs).map (fun g => ((catSlices g.2 k i).1).countP
          (fun it => decide (extractFieldValue it field = c)))).sum = 0 ∧
      ((gs.map Prod.snd).flatten).countP
          (fun it => decide (extractFieldValue it field = c)) = 0
  | [], pos, i, _, _ => by simp [shuffleGroups]
  | g :: t, pos, i, hmem, hkey => by
    have hsplit : ¬(c = g.1 ∨ c ∈ t.map Prod.fst) := by simpa using hkey
    push_neg at hsplit
    have hgz : ∀ x ∈ g.2, ¬ (decide (extractFieldValue x field = c) = true) := by
      intro x hx
      simp only [decide_eq_true_eq]
      rw [hmem g (List.mem_cons_self _ _) x hx]
      exact fun h => hsplit.1 h.symm
    have hslice : ((catSlices (shuffleArray r pos g.2) k i).1).countP
        (fun it => decide (extractFieldValue it field = c)) = 0 := by
      rw [List.countP_eq_zero]
      intro x hx
      exact hgz x ((shuffleArray_perm r pos g.2).mem_iff.mp
        ((catSlices_fst_sublist _ k i).subset hx))
    obtain ⟨ih1, ih2⟩ := strat_count_zero r k field c t (pos + (g.2.length - 1)) i
      (fun g' hg' => hmem g' (List.mem_cons_of_mem _ hg')) hsplit.2
    constructor
    · simp only [shuffleGroups, List.map_cons, List.sum_cons, hslice, ih1]
    · simp only [List.map_cons, List.flatten_cons, List.countP_append, ih2,
        List.countP_eq_zero.mpr hgz]

/-- The per-fold count of category `c` in the stratified split: each fold
`i < k-1` receives `floor(m/k)` of `c`'s `m` records, the last fold receives
the rest. -/
theorem strat_count (r : Nat → ℚ) (k : Nat) (field : List Char)
    (c : Option (List Char)) (hk : 1 ≤ k) :
    ∀ (gs : List (Option (List Char) × List Item)) (pos i : Nat), i < k →
      (∀ g ∈ gs, ∀ x ∈ g.2, extractFieldValue x field = g.1) →
      ((gs.map Prod.fst).Nodup) →
      ((shuffleGroups r pos gs).map (fun g => ((catSlices g.2 k i).1).countP
          (fun it => decide (extractFieldValue it field = c)))).sum
        = (if i = k - 1
            then ((gs.map Prod.snd).flatten).countP
                (fun it => decide (extractFieldValue it field = c))
              - (k - 1) * (((gs.map Prod.snd).flatten).countP
                (fun it => decide (extractFieldValue it field = c)) / k)
            else ((gs.map Prod.snd).flatten).countP
                (fun it => decide (extractFieldValue it field = c)) / k)
  | [], pos, i, hi, _, _ => by
    by_cases h : i = k - 1 <;> simp [shuffleGroups, h, Nat.zero_div]
  | g :: t, pos, i, hi, hmem, hnodup => by
    have hmem_t : ∀ g' ∈ t, ∀ x ∈ g'.2, extractFieldValue x field = g'.1 :=
      fun g' hg' => hmem g' (List.mem_cons_of_mem _ hg')
    have hperm := shuffleArray_perm r pos g.2
    have hnodup2 : g.1 ∉ t.map Prod.fst ∧ (t.map Prod.fst).Nodup := by
      have h := hnodup
      rw [List.map_cons, List.nodup_cons] at h
      exact h
    by_cases hc : g.1 = c
    · -- this is the category `c`; no other group has key `c`
      have hnot : c ∉ t.map Prod.fst := by
        have h1 := hnodup2.1
        rwa [hc] at h1
      obtain ⟨ihz1, ihz2⟩ := strat_count_zero r k field c t (pos + (g.2.length - 1)) i
        hmem_t hnot
      have hall : ∀ x ∈ g.2, (fun it => decide (extractFieldValue it field = c)) x = true := by
        intro x hx
        simp only [decide_eq_true_eq]
        rw [hmem g (List.mem_cons_self _ _) x hx, hc]
      have hslice : ((catSlices (shuffleArray r pos g.2) k i).1).countP
          (fun it => decide (extractFieldValue it field = c))
          = ((catSlices (shuffleArray r pos g.2) k i).1).length := by
        rw [List.countP_eq_length]
        intro x hx
        exact hall x (hperm.mem_iff.mp ((catSlices_fst_sublist _ k i).subset hx))
      have hlen : ((catSlices (shuffleArray r pos g.2) k i).1).length
          = if i = k - 1 then g.2.length - (k - 1) * (g.2.length / k)
            else g.2.length / k := by
        rw [catSlices_test_length _ k i hk hi, hperm.length_eq]
      have hcnt : g.2.countP (fun it => decide (extractFieldValue it field = c))
          = g.2.length := List.countP_eq_length.mpr hall
      simp only [shuffleGroups, List.map_cons, List.sum_cons, List.flatten_cons,
        List.countP_append, hslice, hlen, ihz1, ihz2, hcnt, Nat.add_zero]
    · -- a category other than `c`
      have hzero : ∀ x ∈ g.2, ¬((fun it => decide (extractFieldValue it field = c)) x
          = true) := by
        intro x hx
        simp only [decide_eq_true_eq]
        rw [hmem g (List.mem_cons_self _ _) x hx]
        exact hc
      have hslice : ((catSlices (shuffleArray r pos g.2) k i).1).countP
          (fun it => decide (extractFieldValue it field = c)) = 0 := by
        rw [List.countP_eq_zero]
        intro x hx
        exact hzero x (hperm.mem_iff.mp ((catSlices_fst_sublist _ k i).subset hx))
      have ih := strat_count r k field c hk t (pos + (g.2.length - 1)) i hi hmem_t
        hnodup2.2
      simp only [shuffleGroups, List.map_cons, List.sum_cons, List.flatten_cons,
        List.countP_append, hslice, List.countP_eq_zero.mpr hzero, Nat.zero_add, ih]

/-! ### Interchanging the two flattenings -/

theorem flatten_map_nil {γ : Type} (cs : List γ) :
    (cs.map (fun _ => ([] : List α))).flatten = [] := by
  induction cs with
  | nil => rfl
  | cons c t ih => simp [ih]

theorem flatten_map_append_perm {γ : Type} (cs : List γ) (x y : γ → List α) :
    ((cs.map (fun c => x c ++ y c)).flatten).Perm
      ((cs.map x).flatten ++ (cs.map y).flatten) := by
  induction cs with
  | nil => rfl
  | cons c t ih =>
    simp only [List.map_cons, List.flatten_cons]
    refine ((List.Perm.append_left (x c ++ y c) ih).trans ?_)
    rw [List.append_assoc, List.append_assoc]
    exact List.Perm.append_left (x c)
      (middle_swap_perm (y c) ((t.map x).flatten) ((t.map y).flatten))

theorem flatten_swap {β γ : Type} (bs : List β) (cs : List γ) (f : β → γ → List α) :
    ((bs.map (fun b => (cs.map (fun c => f b c)).flatten)).flatten).Perm
      ((cs.map (fun c => (bs.map (fun b => f b c)).flatten)).flatten) := by
  induction bs with
  | nil =>
    simp only [List.map_nil, List.flatten_nil]
    rw [flatten_map_nil]
  | cons b t ih =>
    simp only [List.map_cons, List.flatten_cons]
    refine (List.Perm.append_left _ ih).trans ?_
    exact (flatten_map_append_perm cs (fun c => f b c)
      (fun c => (t.map (fun b => f b c)).flatten)).symm

theorem flatten_perm_of_shuffleGroups (r : Nat → ℚ) :
    ∀ (pos : Nat) (gs : List (Option (List Char) × List Item)),
      (((shuffleGroups r pos gs).map Prod.snd).flatten).Perm
        ((gs.map Prod.snd).flatten)
  | _, [] => List.Perm.refl _
  | pos, g :: t => by
    simp only [shuffleGroups, List.map_cons, List.flatten_cons]
    exact List.Perm.append (shuffleArray_perm r pos g.2)
      (flatten_perm_of_shuffleGroups r _ t)

/-! ### The stratified split: full specification -/

theorem stratifiedKFold_spec (r : Nat → ℚ) (pos : Nat) (data : List Item)
    (k : Nat) (field : List Char) (hk : 1 ≤ k) :
    (stratifiedKFoldSplit r pos data k field).folds.length = k ∧
    (((stratifiedKFoldSplit r pos data k field).folds.map (·.test)).flatten).Perm data ∧
    (∀ c : Option (List Char),
      (stratifiedKFoldSplit r pos data k field).folds.map
          (fun fd => fd.test.countP (fun it => decide (extractFieldValue it field = c)))
        = (List.range k).map (fun i =>
            if i = k - 1
            then data.countP (fun it => decide (extractFieldValue it field = c))
              - (k - 1) * (data.countP (fun it => decide (extractFieldValue it field = c)) / k)
            else data.countP (fun it => decide (extractFieldValue it field = c)) / k)) := by
  obtain ⟨hlen, htests⟩ := stratifiedKFold_tests r pos data k field
  refine ⟨hlen, ?_, ?_⟩
  · -- every record lands in exactly one fold's test set
    rw [htests]
    refine (flatten_swap (List.range k) (shuffleGroups r pos (groupByField data field))
      (fun i g => (catSlices g.2 k i).1)).trans ?_
    have hinner : (shuffleGroups r pos (groupByField data field)).map
        (fun g => ((List.range k).map (fun i => (catSlices g.2 k i).1)).flatten)
        = (shuffleGroups r pos (groupByField data field)).map Prod.snd := by
      apply List.map_congr_left
      intro g _
      exact catSlices_flatten g.2 k hk
    rw [hinner]
    exact (flatten_perm_of_shuffleGroups r pos _).trans (groupByField_flatten data field)
  · intro c
    have hmapmap : (stratifiedKFoldSplit r pos data k field).folds.map
        (fun fd => fd.test.countP (fun it => decide (extractFieldValue it field = c)))
        = ((stratifiedKFoldSplit r pos data k field).folds.map (·.test)).map
            (List.countP (fun it => decide (extractFieldValue it field = c))) := by
      rw [List.map_map]
      rfl
    rw [hmapmap, htests, List.map_map]
    apply List.map_congr_left
    intro i hi
    have hik : i < k := List.mem_range.mp hi
    simp only [Function.comp]
    rw [List.countP_flatten, List.map_map]
    have hcnt := strat_count r k field c hk (groupByField data field) pos i hik
      (groupByField_members data field) (groupByField_keys_nodup data field)
    have hdata : ((((groupByField data field)).map Prod.snd).flatten).countP
        (fun it => decide (extractFieldValue it field = c))
        = data.countP (fun it => decide (extractFieldValue it field = c)) :=
      (groupByField_flatten data field).countP_eq _
    rw [hdata] at hcnt
    exact hcnt

theorem kFoldSplit_eq_strat (r : Nat → ℚ) (pos : Nat) (data : List Item) (k : Nat)
    (shuffle : Bool) (field : List Char) (h2 : 2 ≤ k) (hk : k ≤ data.length) :
    kFoldSplit r pos data k shuffle (some field)
      = .ok (stratifiedKFoldSplit r (if shuffle then pos + (data.length - 1) else pos)
          (if shuffle then shuffleArray r pos data else data) k field) := by
  unfold kFoldSplit
  rw [if_neg (by omega), if_neg (by omega)]

/-- Full statement for the stratified k-fold split reached through
`kFoldSplit(data, k, shuffle, stratifyField)`. -/
theorem stratified_kfold_full (r : Nat → ℚ) (pos : Nat) (data : List Item)
    (k : Nat) (shuffle : Bool) (field : List Char) (h2 : 2 ≤ k)
    (hk : k ≤ data.length) :
    ∃ res : KFoldResult,
      kFoldSplit r pos data k shuffle (some field) = .ok res ∧
      res.folds.length = k ∧
      ((res.folds.map (·.test)).flatten).Perm data ∧
      (∀ c : Option (List Char),
        res.folds.map
            (fun fd => fd.test.countP (fun it => decide (extractFieldValue it field = c)))
          = (List.range k).map (fun i =>
              if i = k - 1
              then data.countP (fun it => decide (extractFieldValue it field = c))
                - (k - 1) * (data.countP
                    (fun it => decide (extractFieldValue it field = c)) / k)
              else data.countP (fun it => decide (extractFieldValue it field = c)) / k)) := by
  have hdc := dataCopy_perm r pos data shuffle
  obtain ⟨hlen, hflat, hcount⟩ := stratifiedKFold_spec r
    (if shuffle then pos + (data.length - 1) else pos)
    (if shuffle then shuffleArray r pos data else data) k field (by omega)
  refine ⟨_, kFoldSplit_eq_strat r pos data k shuffle field h2 hk, hlen,
    hflat.trans hdc, ?_⟩
  intro c
  rw [hcount c]
  apply List.map_congr_left
  intro i _
  rw [hdc.countP_eq (fun it => decide (extractFieldValue it field = c))]

/-- C1 (amended): in the k folds produced by stratified `kFoldSplit` every
record of any category C appears in exactly one fold's test set, and the
per-fold counts of C's records are `floor(|C|/k)` for folds 1..k-1 while
fold k receives `|C| - (k-1) * floor(|C|/k)`, i.e. the whole remainder
`|C| mod k`; any two counts therefore differ by at most 1 only when
`|C| mod k ≤ 1`, not in general. -/
theorem stratified_kfold_distribution (r : Nat → ℚ) (pos : Nat) (data : List Item)
    (k : Nat) (shuffle : Bool) (field : List Char) (h2 : 2 ≤ k)
    (hk : k ≤ data.length) :
    ∃ res : KFoldResult,
      kFoldSplit r pos data k shuffle (some field) = .ok res ∧
      res.folds.length = k ∧
      ((res.folds.map (·.test)).flatten).Perm data ∧
      (∀ c : Option (List Char),
        res.folds.map
            (fun fd => fd.test.countP (fun it => decide (extractFieldValue it field = c)))
          = (List.range k).map (fun i =>
              if i = k - 1
              then data.countP (fun it => decide (extractFieldValue it field = c))
                - (k - 1) * (data.countP
                    (fun it => decide (extractFieldValue it field = c)) / k)
              else data.countP (fun it => decide (extractFieldValue it field = c)) / k)) :=
  stratified_kfold_full r pos data k shuffle field h2 hk

theorem stratified_kfold_distribution_witness :
    2 ≤ 2 ∧ (2 : Nat) ≤ [Item.mk 1 [], Item.mk 2 []].length ∧
    (∃ res : KFoldResult,
      kFoldSplit (fun _ => 0) 0 [Item.mk 1 [], Item.mk 2 []] 2 false (some [
        Char.ofNat 99]) = .ok res ∧
      res.folds.length = 2 ∧
      ((res.folds.map (·.test)).flatten).Perm [Item.mk 1 [], Item.mk 2 []] ∧
      (∀ c : Option (List Char),
        res.folds.map
            (fun fd => fd.test.countP
              (fun it => decide (extractFieldValue it [Char.ofNat 99] = c)))
          = (List.range 2).map (fun i =>
              if i = 2 - 1
              then [Item.mk 1 [], Item.mk 2 []].countP
                  (fun it => decide (extractFieldValue it [Char.ofNat 99] = c))
                - (2 - 1) * ([Item.mk 1 [], Item.mk 2 []].countP
                    (fun it => decide (extractFieldValue it [Char.ofNat 99] = c)) / 2)
              else [Item.mk 1 [], Item.mk 2 []].countP
                  (fun it => decide (extractFieldValue it [Char.ofNat 99] = c)) / 2))) :=
  ⟨by decide, by decide,
    stratified_kfold_distribution (fun _ => 0) 0 [Item.mk 1 [], Item.mk 2 []] 2 false
      [Char.ofNat 99] (by decide) (by decide)⟩

/-- C1 (counterexample): a dataset of five records, three of category `a`
and two of category `b`, split with `k = 5` and the instance RNG seeded with
the default 42.  Category `a`'s per-fold test counts are `[0, 0, 0, 0, 3]`:
the last fold absorbs the whole remainder, so two folds differ by 3, not at
most 1. -/
theorem stratified_kfold_remainder_counterexample :
    ∃ res : KFoldResult,
      kFoldSplit (jsLcgOut 42) 0
        [Item.mk 1 [(['c'], ['a'])], Item.mk 2 [(['c'], ['a'])],
         Item.mk 3 [(['c'], ['a'])], Item.mk 4 [(['c'], ['b'])],
         Item.mk 5 [(['c'], ['b'])]] 5 true (some ['c']) = .ok res ∧
      res.folds.map
          (fun fd => fd.test.countP
            (fun it => decide (extractFieldValue it ['c'] = some ['a'])))
        = [0, 0, 0, 0, 3] ∧
      ¬ (∀ x ∈ res.folds.map
            (fun fd => fd.test.countP
              (fun it => decide (extractFieldValue it ['c'] = some ['a']))),
          ∀ y ∈ res.folds.map
            (fun fd => fd.test.countP
              (fun it => decide (extractFieldValue it ['c'] = some ['a']))),
          x ≤ y + 1) := by
  obtain ⟨res, heq, hlen, hflat, hcount⟩ := stratified_kfold_full (jsLcgOut 42) 0
    [Item.mk 1 [(['c'], ['a'])], Item.mk 2 [(['c'], ['a'])],
     Item.mk 3 [(['c'], ['a'])], Item.mk 4 [(['c'], ['b'])],
     Item.mk 5 [(['c'], ['b'])]] 5 true ['c'] (by decide) (by decide)
  have hm := hcount (some ['a'])
  have hconc : (List.range 5).map (fun i =>
      if i = 5 - 1
      then ([Item.mk 1 [(['c'], ['a'])], Item.mk 2 [(['c'], ['a'])],
         Item.mk 3 [(['c'], ['a'])], Item.mk 4 [(['c'], ['b'])],
         Item.mk 5 [(['c'], ['b'])]].countP
          (fun it => decide (extractFieldValue it ['c'] = some ['a'])))
        - (5 - 1) * (([Item.mk 1 [(['c'], ['a'])], Item.mk 2 [(['c'], ['a'])],
         Item.mk 3 [(['c'], ['a'])], Item.mk 4 [(['c'], ['b'])],
         Item.mk 5 [(['c'], ['b'])]].countP
          (fun it => decide (extractFieldValue it ['c'] = some ['a']))) / 5)
      else ([Item.mk 1 [(['c'], ['a'])], Item.mk 2 [(['c'], ['a'])],
         Item.mk 3 [(['c'], ['a'])], Item.mk 4 [(['c'], ['b'])],
         Item.mk 5 [(['c'], ['b'])]].countP
          (fun it => decide (extractFieldValue it ['c'] = some ['a']))) / 5)
      = [0, 0, 0, 0, 3] := by decide
  rw [hconc] at hm
  refine ⟨res, heq, hm, ?_⟩
  rw [hm]
  decide

/-! ## `DataSplitter.stratifiedSplit`, `bootstrapSample`, `leaveOneOutSplit` -/

structure CatStat where
  total : Nat
  train : Nat
  test : Nat
  kept_in_train : Option Bool
  test_ratio : Option ℚ
deriving DecidableEq

structure StratInfo where
  total_samples : Nat
  train_samples : Nat
  test_samples : Nat
  categories : Nat
  category_stats : List (Option (List Char) × CatStat)
deriving DecidableEq

structure StratResult where
  train : List Item
  test : List Item
  split_info : StratInfo
deriving DecidableEq

structure StratAcc where
  train : List Item
  test : List Item
  stats : List (Option (List Char) × CatStat)
  pos : Nat

/-- `stratifiedSplit(data, testSize, stratifyField, minSamplesPerCategory)`:
categories smaller than `minSamplesPerCategory` go whole into `train`
(consuming no RNG); larger ones are shuffled and contribute
`max(1, floor(count * testSize))` records to `test`.  Returns the result and
the advanced RNG cursor. -/
def stratifiedSplit (r : Nat → ℚ) (pos : Nat) (data : List Item) (testSize : ℚ)
    (field : List Char) (minPer : Nat) : StratResult × Nat :=
  let groups := groupByField data field
  let acc := groups.foldl (fun (acc : StratAcc) g =>
    if g.2.length < minPer then
      { acc with
        train := acc.train ++ g.2
        stats := acc.stats ++ [(g.1,
          { total := g.2.length, train := g.2.length, test := 0
            kept_in_train := some true, test_ratio := none })] }
    else
      let shuffled := shuffleArray r acc.pos g.2
      let testCount : Int := max 1 (jsFloor ((g.2.length : ℚ) * testSize))
      let testItems := jsSlice shuffled 0 testCount
      let trainItems := jsSliceFrom shuffled testCount
      { train := acc.train ++ trainItems
        test := acc.test ++ testItems
        stats := acc.stats ++ [(g.1,
          { total := g.2.length, train := trainItems.length, test := testItems.length
            kept_in_train := none
            test_ratio := some ((testCount : ℚ) / (g.2.length : ℚ)) })]
        pos := acc.pos + (g.2.length - 1) })
    { train := [], test := [], stats := [], pos := pos }
  ({ train := acc.train
     test := acc.test
     split_info :=
       { total_samples := data.length
         train_samples := acc.train.length
         test_samples := acc.test.length
         categories := acc.stats.length
         category_stats := acc.stats } }, acc.pos)

structure BootInfo where
  num_samples : Nat
  sample_size : Nat
  original_size : Nat
  with_replacement : Bool
deriving DecidableEq

structure BootResult where
  samples : List (List (Option Item))
  sample_info : BootInfo
deriving DecidableEq

/-- `bootstrapSample(data, numSamples, sampleSize)`: `numSamples` samples of
`sampleSize` records drawn with replacement (`sampleSize || data.length`
makes both `null` and `0` default to the dataset size).  A draw outside the
array — possible only for RNG values outside `[0,1)` — reads `undefined`,
modelled as `none`. -/
def bootstrapSample (r : Nat → ℚ) (pos : Nat) (data : List Item) (numSamples : Nat)
    (sampleSize : Option Nat) : BootResult × Nat :=
  let ss := match sampleSize with
    | none => data.length
    | some v => if v = 0 then data.length else v
  ({ samples := (List.range numSamples).map (fun i =>
      (List.range ss).map (fun j =>
        jsGetIdx data (jsFloor (r (pos + i * ss + j) * (data.length : ℚ)))))
     sample_info :=
       { num_samples := numSamples
         sample_size := ss
         original_size := data.length
         with_replacement := true } }, pos + numSamples * ss)

structure LOOInfo where
  method : List Char
  total_splits : Nat
  total_samples : Nat
deriving DecidableEq

structure LOOResult where
  splits : List Fold
  split_info : LOOInfo
deriving DecidableEq

/-- `leaveOneOutSplit(data)`: one fold per record; consumes no RNG. -/
def leaveOneOutSplit (data : List Item) : LOOResult :=
  { splits := (List.range data.length).map (fun i =>
      { fold := i + 1
        train := jsSlice data 0 (i : Int) ++ jsSliceFrom data ((i + 1 : Nat) : Int)
        test := (data.drop i).take 1
        train_size := data.length - 1
        test_size := 1 })
    split_info :=
      { method := ['l','e','a','v','e','_','o','n','e','_','o','u','t']
        total_splits := data.length
        total_samples := data.length } }

/-! ## The splitter call interpreter (determinism)

A `DataSplitter` instance is its seed: the RNG stream `jsLcgOut seed` plus
the cursor `pos`, advanced by every shuffle/sample.  A call sequence against
one instance is interpreted by threading the cursor through the calls. -/

inductive SplitterCall where
  | tts (testSize : ℚ) (shuffle : Bool)
  | strat (testSize : ℚ) (field : List Char) (minPer : Nat)
  | kfold (k : Nat) (shuffle : Bool) (stratify : Option (List Char))
  | boot (numSamples : Nat) (sampleSize : Option Nat)
  | loo
  | shuffleCall

inductive SplitterOut where
  | tts (res : TTSResult)
  | strat (res : StratResult)
  | kfold (res : Except String KFoldResult)
  | boot (res : BootResult)
  | loo (res : LOOResult)
  | shuffled (l : List Item)

/-- One call against the splitter: result plus advanced RNG cursor. -/
def runCall (r : Nat → ℚ) (data : List Item) : SplitterCall → Nat → SplitterOut × Nat
  | .tts ts sh, pos =>
    (.tts (trainTestSplit r pos data ts sh),
     pos + (if sh then data.length - 1 else 0))
  | .strat ts f m, pos =>
    let res := stratifiedSplit r pos data ts f m
    (.strat res.1, res.2)
  | .kfold k sh st, pos =>
    (.kfold (kFoldSplit r pos data k sh st),
     if k < 2 ∨ data.length < k then pos
     else
       (if sh then pos + (data.length - 1) else pos) +
         (match st with
          | none => 0
          | some field =>
            (((groupByField (if sh then shuffleArray r pos data else data) field)).map
              (fun g => g.2.length - 1)).sum))
  | .boot ns ss, pos =>
    let res := bootstrapSample r pos data ns ss
    (.boot res.1, res.2)
  | .loo, pos => (.loo (leaveOneOutSplit data), pos)
  | .shuffleCall, pos =>
    (.shuffled (shuffleArray r pos data), pos + (data.length - 1))

/-- A whole call sequence against a freshly constructed `DataSplitter(seed)`. -/
def runCalls (seed : Int) (data : List Item) (calls : List SplitterCall) :
    List SplitterOut :=
  (calls.foldl (fun (acc : List SplitterOut × Nat) c =>
    let out := runCall (jsLcgOut seed) data c acc.2
    (acc.1 ++ [out.1], out.2)) ([], 0)).1

/-- C3: two independently constructed `DataSplitter` instances seeded with
the same integer, given the identical call sequence over the same dataset,
produce identical outputs on every call.  In the embedding every splitter
operation is a pure function of the seed, the RNG cursor and its arguments,
so equal seeds force equal output sequences. -/
theorem splitter_determinism (s₁ s₂ : Int) (data : List Item)
    (calls : List SplitterCall) (h : s₁ = s₂) :
    runCalls s₁ data calls = runCalls s₂ data calls := by
  rw [h]

theorem splitter_determinism_witness :
    (42 : Int) = 42 ∧
    runCalls 42 [Item.mk 1 [], Item.mk 2 []]
        [SplitterCall.shuffleCall, SplitterCall.tts (1/5) true,
         SplitterCall.kfold 2 true none, SplitterCall.loo]
      = runCalls 42 [Item.mk 1 [], Item.mk 2 []]
        [SplitterCall.shuffleCall, SplitterCall.tts (1/5) true,
         SplitterCall.kfold 2 true none, SplitterCall.loo] :=
  ⟨rfl, splitter_determinism 42 42 [Item.mk 1 [], Item.mk 2 []]
    [SplitterCall.shuffleCall, SplitterCall.tts (1/5) true,
     SplitterCall.kfold 2 true none, SplitterCall.loo] rfl⟩

/-! ## `CrossValidator` -/

/-- A fold evaluation result: metric name → numeric value. -/
def FoldMetrics := List (String × ℚ)

structure FoldRunResult where
  fold : Nat
  outcome : Except String FoldMetrics
  train_size : Nat
  test_size : Nat

def metricsOf (fr : FoldRunResult) : FoldMetrics :=
  match fr.outcome with
  | .ok ms => ms
  | .error _ => []

/-- The fold loop of `performCrossValidation`: the callback runs once per
fold; a throw is caught and recorded as this fold's `error` entry and the
loop continues. -/
def runFolds (cb : List Item → List Item → Nat → Except String FoldMetrics)
    (folds : List Fold) : List FoldRunResult :=
  folds.enum.map (fun p =>
    { fold := p.2.fold
      outcome := cb p.2.train p.2.test p.1
      train_size := p.2.train_size
      test_size := p.2.test_size })

def mean (arr : List ℚ) : ℚ :=
  if 0 < arr.length then arr.sum / (arr.length : ℚ) else 0

noncomputable def std (arr : List ℚ) : ℝ :=
  Real.sqrt ((mean (arr.map (fun x => (x - mean arr)^2)) : ℚ))

/-- `Math.min(...values)` / `Math.max(...values)` over a nonempty list. -/
def listMin (arr : List ℚ) : ℚ :=
  match arr with
  | [] => 0
  | x :: t => t.foldl min x

def listMax (arr : List ℚ) : ℚ :=
  match arr with
  | [] => 0
  | x :: t => t.foldl max x

structure Stats where
  mean : ℚ
  std : ℝ
  min : ℚ
  max : ℚ
  values : List ℚ

noncomputable def mkStats (values : List ℚ) : Stats :=
  { mean := mean values
    std := std values
    min := listMin values
    max := listMax values
    values := values }

structure Aggregated where
  cv_info : FoldInfo
  successful_folds : Nat
  failed_folds : Nat
  metrics : List (String × Stats)
  fold_results : List FoldRunResult

def reservedKeys : List String := ["fold", "train_size", "test_size", "error"]

/-- `aggregateCrossValidationResults`: throws when no fold succeeded; else
takes the metric keys of the first successful fold and, for each, the
mean/std/min/max over the values found in the successful folds. -/
noncomputable def aggregateCrossValidationResults (foldResults : List FoldRunResult)
    (foldInfo : FoldInfo) : Except String Aggregated :=
  match foldResults.filter (fun fr => fr.outcome.isOk) with
  | [] => .error "All cross-validation folds failed"
  | sample :: rest =>
    let validResults := sample :: rest
    let metricKeys := ((metricsOf sample).map Prod.fst).filter
      (fun m => ¬ m ∈ reservedKeys)
    .ok
      { cv_info := foldInfo
        successful_folds := validResults.length
        failed_folds := foldResults.length - validResults.length
        metrics := metricKeys.filterMap (fun m =>
          let values := validResults.filterMap (fun fr => (metricsOf fr).lookup m)
          if 0 < values.length then some (m, mkStats values) else none)
        fold_results := foldResults }

structure CVConfig where
  k : Nat
  stratify : Bool
  random_seed : Int

def articletypeField : List Char := ['a','r','t','i','c','l','e','t','y','p','e']

/-- `this.config.stratify ? (stratifyField || 'articletype') : null`. -/
def stratifyArg (cfg : CVConfig) (stratifyField : Option (List Char)) :
    Option (List Char) :=
  if cfg.stratify then
    some (match stratifyField with
          | none => articletypeField
          | some f => if f = [] then articletypeField else f)
  else none

/-- `performCrossValidation(data, evaluationFunction, stratifyField)`.  The
splitter is the freshly seeded instance (stream `r`, cursor 0). -/
noncomputable def performCrossValidation (r : Nat → ℚ) (cfg : CVConfig)
    (data : List Item)
    (evaluationFunction : List Item → List Item → Nat → Except String FoldMetrics)
    (stratifyField : Option (List Char)) : Except String Aggregated :=
  match kFoldSplit r 0 data cfg.k true (stratifyArg cfg stratifyField) with
  | .error e => .error e
  | .ok splits =>
    aggregateCrossValidationResults (runFolds evaluationFunction splits.folds)
      splits.fold_info

theorem kFoldSplit_isOk (r : Nat → ℚ) (pos : Nat) (data : List Item) (k : Nat)
    (shuffle : Bool) (st : Option (List Char)) (h2 : 2 ≤ k) (hk : k ≤ data.length) :
    ∃ res : KFoldResult, kFoldSplit r pos data k shuffle st = .ok res := by
  cases st with
  | none => exact ⟨_, kFoldSplit_eq_plain r pos data k shuffle h2 hk⟩
  | some field => exact ⟨_, kFoldSplit_eq_strat r pos data k shuffle field h2 hk⟩

theorem aggregate_all_failed (foldResults : List FoldRunResult) (foldInfo : FoldInfo)
    (h : ∀ fr ∈ foldResults, ¬ fr.outcome.isOk) :
    aggregateCrossValidationResults foldResults foldInfo
      = .error "All cross-validation folds failed" := by
  unfold aggregateCrossValidationResults
  have hf : foldResults.filter (fun fr => fr.outcome.isOk) = [] := by
    rw [List.filter_eq_nil_iff]
    intro fr hfr
    simpa using h fr hfr
  rw [hf]

/-- C4: in a k-fold cross-validation run, a callback that throws on a fold
has its error caught and recorded in that fold's result entry; all remaining
folds still execute (the results list has one entry per fold, each holding
exactly that fold's callback outcome); the run throws only when zero folds
succeed; and the aggregated result reports `failed_folds` equal to the
number of failing folds, with the per-metric statistics computed only from
the successful folds. -/
theorem cross_validation_error_isolation (r : Nat → ℚ) (cfg : CVConfig)
    (data : List Item)
    (cb : List Item → List Item → Nat → Except String FoldMetrics)
    (sf : Option (List Char)) (h2 : 2 ≤ cfg.k) (hk : cfg.k ≤ data.length) :
    ∃ splits : KFoldResult,
      kFoldSplit r 0 data cfg.k true (stratifyArg cfg sf) = .ok splits ∧
      (runFolds cb splits.folds).length = splits.folds.length ∧
      (∀ i : Nat, (runFolds cb splits.folds)[i]?
        = (splits.folds[i]?).map (fun fd =>
            { fold := fd.fold
              outcome := cb fd.train fd.test i
              train_size := fd.train_size
              test_size := fd.test_size })) ∧
      ((∀ fr ∈ runFolds cb splits.folds, ¬ fr.outcome.isOk) →
        performCrossValidation r cfg data cb sf
          = .error "All cross-validation folds failed") ∧
      (∀ fr0 ∈ runFolds cb splits.folds, fr0.outcome.isOk →
        ∃ agg : Aggregated,
          performCrossValidation r cfg data cb sf = .ok agg ∧
          agg.successful_folds
            = (runFolds cb splits.folds).countP (fun fr => fr.outcome.isOk) ∧
          agg.failed_folds
            = (runFolds cb splits.folds).countP (fun fr => ¬ fr.outcome.isOk) ∧
          agg.fold_results = runFolds cb splits.folds ∧
          agg.cv_info = splits.fold_info ∧
          (∀ m st, (m, st) ∈ agg.metrics →
            ∃ values : List ℚ,
              values = ((runFolds cb splits.folds).filter
                  (fun fr => fr.outcome.isOk)).filterMap
                    (fun fr => (metricsOf fr).lookup m) ∧
              values ≠ [] ∧ st = mkStats values)) := by
  obtain ⟨splits, hsplit⟩ := kFoldSplit_isOk r 0 data cfg.k true (stratifyArg cfg sf) h2 hk
  have hpcv : performCrossValidation r cfg data cb sf
      = aggregateCrossValidationResults (runFolds cb splits.folds) splits.fold_info := by
    unfold performCrossValidation
    rw [hsplit]
  refine ⟨splits, hsplit, by simp [runFolds], ?_, ?_, ?_⟩
  · intro i
    unfold runFolds
    rw [List.getElem?_map, List.getElem?_enum]
    cases splits.folds[i]? <;> rfl
  · intro hall
    rw [hpcv]
    exact aggregate_all_failed _ _ hall
  · intro fr0 hfr0 hok
    have hne : (runFolds cb splits.folds).filter (fun fr => fr.outcome.isOk) ≠ [] := by
      intro hnil
      have := List.filter_eq_nil_iff.mp hnil fr0 hfr0
      simp [hok] at this
    set results := runFolds cb splits.folds with hres
    obtain ⟨sample, rest, hfilter⟩ : ∃ sample rest,
        results.filter (fun fr => fr.outcome.isOk) = sample :: rest := by
      cases hf : results.filter (fun fr => fr.outcome.isOk) with
      | nil => exact absurd hf hne
      | cons a t => exact ⟨a, t, rfl⟩
    have hagg : aggregateCrossValidationResults results splits.fold_info
        = .ok
          { cv_info := splits.fold_info
            successful_folds := (sample :: rest).length
            failed_folds := results.length - (sample :: rest).length
            metrics := (((metricsOf sample).map Prod.fst).filter
                (fun m => ¬ m ∈ reservedKeys)).filterMap (fun m =>
              let values := (sample :: rest).filterMap
                (fun fr => (metricsOf fr).lookup m)
              if 0 < values.length then some (m, mkStats values) else none)
            fold_results := results } := by
      unfold aggregateCrossValidationResults
      rw [hfilter]
    refine ⟨_, by rw [hpcv]; exact hagg, ?_, ?_, rfl, rfl, ?_⟩
    · -- successful_folds = countP isOk
      simp only
      rw [← hfilter, List.countP_eq_length_filter]
    · -- failed_folds = countP (not isOk)
      simp only
      rw [← hfilter]
      have h1 := List.length_eq_countP_add_countP (p := fun fr => fr.outcome.isOk)
        (l := results)
      have h2 := List.countP_eq_length_filter (fun fr => fr.outcome.isOk) results
      omega
    · -- each reported metric's stats come from the successful folds' values
      intro m st hm
      simp only at hm
      obtain ⟨mk, _hmk, hF⟩ := List.mem_filterMap.mp hm
      by_cases hpos : 0 < ((sample :: rest).filterMap
          (fun fr => (metricsOf fr).lookup mk)).length
      · rw [if_pos hpos] at hF
        obtain ⟨hm1, hm2⟩ := Prod.mk.injEq .. ▸ (Option.some.injEq _ _ ▸ hF)
        refine ⟨(sample :: rest).filterMap (fun fr => (metricsOf fr).lookup mk),
          by rw [← hfilter, hm1], ?_, hm2.symm⟩
        intro hnil
        rw [hnil] at hpos
        simp at hpos
      · rw [if_neg hpos] at hF
        exact absurd hF (by simp)

def cvDataW : List Item :=
  [Item.mk 1 [], Item.mk 2 [], Item.mk 3 [], Item.mk 4 [], Item.mk 5 []]

def cvCfgW : CVConfig := { k := 5, stratify := false, random_seed := 42 }

/-- A callback that throws only on fold index 1 (the second of five). -/
def cvCbW : List Item → List Item → Nat → Except String FoldMetrics :=
  fun _ _ i => if i = 1 then .error "fold failed" else .ok [("accuracy", 1/2)]

theorem cross_validation_error_isolation_witness :
    2 ≤ cvCfgW.k ∧ cvCfgW.k ≤ cvDataW.length ∧
    (∃ splits : KFoldResult,
      kFoldSplit (fun _ => 0) 0 cvDataW cvCfgW.k true (stratifyArg cvCfgW none)
        = .ok splits ∧
      (runFolds cvCbW splits.folds).length = splits.folds.length ∧
      (∀ i : Nat, (runFolds cvCbW splits.folds)[i]?
        = (splits.folds[i]?).map (fun fd =>
            { fold := fd.fold
              outcome := cvCbW fd.train fd.test i
              train_size := fd.train_size
              test_size := fd.test_size })) ∧
      ((∀ fr ∈ runFolds cvCbW splits.folds, ¬ fr.outcome.isOk) →
        performCrossValidation (fun _ => 0) cvCfgW cvDataW cvCbW none
          = .error "All cross-validation folds failed") ∧
      (∀ fr0 ∈ runFolds cvCbW splits.folds, fr0.outcome.isOk →
        ∃ agg : Aggregated,
          performCrossValidation (fun _ => 0) cvCfgW cvDataW cvCbW none = .ok agg ∧
          agg.successful_folds
            = (runFolds cvCbW splits.folds).countP (fun fr => fr.outcome.isOk) ∧
          agg.failed_folds
            = (runFolds cvCbW splits.folds).countP (fun fr => ¬ fr.outcome.isOk) ∧
          agg.fold_results = runFolds cvCbW splits.folds ∧
          agg.cv_info = splits.fold_info ∧
          (∀ m st, (m, st) ∈ agg.metrics →
            ∃ values : List ℚ,
              values = ((runFolds cvCbW splits.folds).filter
                  (fun fr => fr.outcome.isOk)).filterMap
                    (fun fr => (metricsOf fr).lookup m) ∧
              values ≠ [] ∧ st = mkStats values))) :=
  ⟨by decide, by decide,
    cross_validation_error_isolation (fun _ => 0) cvCfgW cvDataW cvCbW none
      (by decide) (by decide)⟩

/-! ## `ModelEvaluator`: confusion matrix and classification metrics

Labels are JS strings (`List Char`).  The confusion matrix is a JS `Map`
keyed by the string `` `${actual}_${predicted}` ``, so two label pairs whose
joined forms coincide (possible when labels contain `'_'`) share a cell. -/

/-- The matrix key `` `${actual}_${predicted}` ``. -/
def cmKey (actual predicted : List Char) : List Char :=
  actual ++ '_' :: predicted

/-- `matrix.set(key, (matrix.get(key) || 0) + 1)`. -/
def bump (key : List Char) : List (List Char × Nat) → List (List Char × Nat)
  | [] => [(key, 1)]
  | (k₀, n) :: t =>
    if k₀ = key then (k₀, n + 1) :: t else (k₀, n) :: bump key t

/-- Build a counter map from a list of keys. -/
def counterOf (m : List (List Char × Nat)) (keys : List (List Char)) :
    List (List Char × Nat) :=
  keys.foldl (fun m k => bump k m) m

/-- `matrix.get(key) || 0` (first-match association lookup). -/
def lookupCount : List (List Char × Nat) → List Char → Nat
  | [], _ => 0
  | (k₀, n) :: t, key => if key = k₀ then n else lookupCount t key

/-- Sum of the counts of the entries whose key satisfies `P`
(`Array.from(matrix.keys()).filter(P).reduce((s, k) => s + matrix.get(k), 0)`). -/
def sumMatrix (m : List (List Char × Nat)) (P : List Char → Bool) : Nat :=
  ((m.filter (fun e => P e.1)).map Prod.snd).sum

structure CM where
  matrix : List (List Char × Nat)
  correct : Nat
  total : Nat

/-- `createConfusionMatrix(groundTruth, predictions)`. -/
def createConfusionMatrix (gt preds : List (List Char)) : CM :=
  { matrix := counterOf [] ((gt.zip preds).map (fun ap => cmKey ap.1 ap.2))
    correct := (gt.zip preds).countP (fun ap => decide (ap.1 = ap.2))
    total := gt.length }

/-- First-seen deduplication, as `[...new Set(xs)]`. -/
def dedupFSAux (seen : List (List Char)) : List (List Char) → List (List Char)
  | [] => []
  | x :: t =>
    if x ∈ seen then dedupFSAux seen t else x :: dedupFSAux (x :: seen) t

def dedupFS (l : List (List Char)) : List (List Char) := dedupFSAux [] l

def tpOf (gt preds : List (List Char)) (c : List Char) : Nat :=
  lookupCount (createConfusionMatrix gt preds).matrix (cmKey c c)

def fpOf (gt preds : List (List Char)) (c : List Char) : Nat :=
  sumMatrix (createConfusionMatrix gt preds).matrix
    (fun key => ('_' :: c).isSuffixOf key && ! (c ++ ['_']).isPrefixOf key)

def fnOf (gt preds : List (List Char)) (c : List Char) : Nat :=
  sumMatrix (createConfusionMatrix gt preds).matrix
    (fun key => (c ++ ['_']).isPrefixOf key && ! ('_' :: c).isSuffixOf key)

def precisionOf (gt preds : List (List Char)) (c : List Char) : ℚ :=
  if 0 < tpOf gt preds c
  then (tpOf gt preds c : ℚ) / ((tpOf gt preds c : ℚ) + (fpOf gt preds c : ℚ))
  else 0

def recallOf (gt preds : List (List Char)) (c : List Char) : ℚ :=
  if 0 < tpOf gt preds c
  then (tpOf gt preds c : ℚ) / ((tpOf gt preds c : ℚ) + (fnOf gt preds c : ℚ))
  else 0

def f1Of (gt preds : List (List Char)) (c : List Char) : ℚ :=
  if 0 < precisionOf gt preds c + recallOf gt preds c
  then 2 * precisionOf gt preds c * recallOf gt preds c
    / (precisionOf gt preds c + recallOf gt preds c)
  else 0

structure ClassMetrics where
  accuracy : ℚ
  macro_precision : ℚ
  macro_recall : ℚ
  macro_f1 : ℚ
deriving DecidableEq

/-- `computeClassificationMetrics(groundTruth, predictions)`: accuracy and
the unweighted averages of the per-class metrics over
`[...new Set([...groundTruth, ...predictions])]`. -/
def computeClassificationMetrics (gt preds : List (List Char)) : ClassMetrics :=
  let classes := dedupFS (gt ++ preds)
  { accuracy := ((createConfusionMatrix gt preds).correct : ℚ)
      / ((createConfusionMatrix gt preds).total : ℚ)
    macro_precision := ((classes.map (precisionOf gt preds)).sum) / (classes.length : ℚ)
    macro_recall := ((classes.map (recallOf gt preds)).sum) / (classes.length : ℚ)
    macro_f1 := ((classes.map (f1Of gt preds)).sum) / (classes.length : ℚ) }

/-! ### Counter lemmas -/

theorem lookupCount_bump (key k : List Char) :
    ∀ m : List (List Char × Nat),
      lookupCount (bump k m) key = lookupCount m key + (if key = k then 1 else 0)
  | [] => by
    simp only [bump, lookupCount]
    by_cases h : key = k <;> simp [h]
  | (k₀, n) :: t => by
    by_cases h0 : k₀ = k
    · rw [show bump k ((k₀, n) :: t) = (k₀, n + 1) :: t by simp [bump, h0]]
      simp only [lookupCount]
      by_cases h : key = k₀
      · rw [if_pos h, if_pos h, if_pos (h.trans h0)]
      · rw [if_neg h, if_neg h, if_neg (fun hh : key = k => h (hh.trans h0.symm))]
        rfl
    · rw [show bump k ((k₀, n) :: t) = (k₀, n) :: bump k t by simp [bump, h0]]
      simp only [lookupCount]
      by_cases h : key = k₀
      · rw [if_pos h, if_pos h, if_neg (fun hh : key = k => h0 (h.symm.trans hh))]
        rfl
      · rw [if_neg h, if_neg h, lookupCount_bump key k t]

theorem sumMatrix_bump (P : List Char → Bool) (k : List Char) :
    ∀ m : List (List Char × Nat),
      sumMatrix (bump k m) P = sumMatrix m P + (if P k then 1 else 0)
  | [] => by
    simp only [bump, sumMatrix]
    by_cases h : P k <;> simp [h]
  | (k₀, n) :: t => by
    by_cases h0 : k₀ = k
    · rw [show bump k ((k₀, n) :: t) = (k₀, n + 1) :: t by simp [bump, h0]]
      by_cases h : P k₀
      · have hf1 : List.filter (fun e => P e.1) ((k₀, n + 1) :: t)
            = (k₀, n + 1) :: List.filter (fun e => P e.1) t := by
          rw [List.filter_cons]; simp [h]
        have hf2 : List.filter (fun e => P e.1) ((k₀, n) :: t)
            = (k₀, n) :: List.filter (fun e => P e.1) t := by
          rw [List.filter_cons]; simp [h]
        simp only [sumMatrix, hf1, hf2, List.map_cons, List.sum_cons, if_pos (h0 ▸ h)]
        omega
      · have hf1 : List.filter (fun e => P e.1) ((k₀, n + 1) :: t)
            = List.filter (fun e => P e.1) t := by
          rw [List.filter_cons]; simp [h]
        have hf2 : List.filter (fun e => P e.1) ((k₀, n) :: t)
            = List.filter (fun e => P e.1) t := by
          rw [List.filter_cons]; simp [h]
        simp only [sumMatrix, hf1, hf2, if_neg (h0 ▸ h)]
        rfl
    · rw [show bump k ((k₀, n) :: t) = (k₀, n) :: bump k t by simp [bump, h0]]
      have ih := sumMatrix_bump P k t
      by_cases h : P k₀
      · have hf1 : List.filter (fun e => P e.1) ((k₀, n) :: bump k t)
            = (k₀, n) :: List.filter (fun e => P e.1) (bump k t) := by
          rw [List.filter_cons]; simp [h]
        have hf2 : List.filter (fun e => P e.1) ((k₀, n) :: t)
            = (k₀, n) :: List.filter (fun e => P e.1) t := by
          rw [List.filter_cons]; simp [h]
        simp only [sumMatrix, hf1, hf2, List.map_cons, List.sum_cons] at ih ⊢
        omega
      · have hf1 : List.filter (fun e => P e.1) ((k₀, n) :: bump k t)
            = List.filter (fun e => P e.1) (bump k t) := by
          rw [List.filter_cons]; simp [h]
        have hf2 : List.filter (fun e => P e.1) ((k₀, n) :: t)
            = List.filter (fun e => P e.1) t := by
          rw [List.filter_cons]; simp [h]
        simp only [sumMatrix, hf1, hf2] at ih ⊢
        omega

theorem lookupCount_counterOf (key : List Char) :
    ∀ (keys : List (List Char)) (m : List (List Char × Nat)),
      lookupCount (counterOf m keys) key = lookupCount m key + keys.count key
  | [], m => by simp [counterOf]
  | k :: t, m => by
    rw [show counterOf m (k :: t) = counterOf (bump k m) t from rfl,
      lookupCount_counterOf key t (bump k m), lookupCount_bump key k m,
      List.count_cons]
    by_cases h : key = k
    · simp only [h, beq_self_eq_true, if_true, eq_self_iff_true]
      omega
    · simp only [beq_iff_eq, if_neg h, if_neg (fun hh : k = key => h hh.symm)]
      omega

theorem sumMatrix_counterOf (P : List Char → Bool) :
    ∀ (keys : List (List Char)) (m : List (List Char × Nat)),
      sumMatrix (counterOf m keys) P = sumMatrix m P + keys.countP P
  | [], m => by simp [counterOf]
  | k :: t, m => by
    rw [show counterOf m (k :: t) = counterOf (bump k m) t from rfl,
      sumMatrix_counterOf P t (bump k m), sumMatrix_bump P k m,
      List.countP_cons]
    by_cases h : P k
    · simp only [h, if_true]
      omega
    · simp only [h, if_false]
      omega

/-! ### First-seen deduplication lemmas -/

theorem dedupFSAux_mem (x : List Char) :
    ∀ (seen l : List (List Char)),
      x ∈ dedupFSAux seen l ↔ x ∈ l ∧ x ∉ seen
  | seen, [] => by simp [dedupFSAux]
  | seen, y :: t => by
    unfold dedupFSAux
    by_cases hy : y ∈ seen
    · rw [if_pos hy, dedupFSAux_mem x seen t]
      constructor
      · exact fun ⟨h1, h2⟩ => ⟨List.mem_cons_of_mem _ h1, h2⟩
      · rintro ⟨h1, h2⟩
        rcases List.mem_cons.mp h1 with h | h
        · exact absurd (h ▸ hy) h2
        · exact ⟨h, h2⟩
    · rw [if_neg hy]
      rw [List.mem_cons, dedupFSAux_mem x (y :: seen) t]
      constructor
      · rintro (h | ⟨h1, h2⟩)
        · exact ⟨h ▸ List.mem_cons_self _ _, h ▸ hy⟩
        · exact ⟨List.mem_cons_of_mem _ h1, fun hh => h2 (List.mem_cons_of_mem _ hh)⟩
      · rintro ⟨h1, h2⟩
        rcases List.mem_cons.mp h1 with h | h
        · exact Or.inl h
        · by_cases hxy : x = y
          · exact Or.inl hxy
          · exact Or.inr ⟨h, fun hh => by
              rcases List.mem_cons.mp hh with h3 | h3
              · exact hxy h3
              · exact h2 h3⟩

theorem dedupFSAux_nodup : ∀ (seen l : List (List Char)), (dedupFSAux seen l).Nodup
  | seen, [] => List.nodup_nil
  | seen, y :: t => by
    unfold dedupFSAux
    by_cases hy : y ∈ seen
    · rw [if_pos hy]
      exact dedupFSAux_nodup seen t
    · rw [if_neg hy]
      refine List.nodup_cons.mpr ⟨?_, dedupFSAux_nodup (y :: seen) t⟩
      intro hmem
      exact ((dedupFSAux_mem y (y :: seen) t).mp hmem).2 (List.mem_cons_self _ _)

theorem dedupFS_mem (x : List Char) (l : List (List Char)) :
    x ∈ dedupFS l ↔ x ∈ l := by
  unfold dedupFS
  rw [dedupFSAux_mem]
  simp

theorem dedupFS_nodup (l : List (List Char)) : (dedupFS l).Nodup :=
  dedupFSAux_nodup [] l

/-! ### Keys of clean (underscore-free) labels -/

theorem keyFront (b : List Char) :
    ∀ (c a : List Char), '_' ∉ a → '_' ∉ c →
      ((c ++ ['_'] <+: a ++ '_' :: b) ↔ c = a)
  | [], [], _, _ => by simp
  | [], x :: t, ha, _ => by
    simp only [List.nil_append, List.cons_append, List.cons_prefix_cons]
    constructor
    · rintro ⟨rfl, -⟩
      exact absurd (List.mem_cons_self _ _) ha
    · intro h
      simp at h
  | y :: s, [], _, hc => by
    simp only [List.cons_append, List.nil_append, List.cons_prefix_cons]
    constructor
    · rintro ⟨rfl, -⟩
      exact absurd (List.mem_cons_self _ _) hc
    · intro h
      simp at h
  | y :: s, x :: t, ha, hc => by
    simp only [List.cons_append, List.cons_prefix_cons]
    rw [keyFront b s t (fun h => ha (List.mem_cons_of_mem _ h))
      (fun h => hc (List.mem_cons_of_mem _ h))]
    simp [List.cons.injEq]

theorem cmKey_isPrefix (a b c : List Char) (ha : '_' ∉ a) (hc : '_' ∉ c) :
    (c ++ ['_']).isPrefixOf (cmKey a b) = true ↔ c = a := by
  rw [List.isPrefixOf_iff_prefix, cmKey]
  exact keyFront b c a ha hc

theorem cmKey_isSuffix (a b c : List Char) (hb : '_' ∉ b) (hc : '_' ∉ c) :
    ('_' :: c).isSuffixOf (cmKey a b) = true ↔ c = b := by
  rw [List.isSuffixOf_iff_suffix, ← List.reverse_prefix]
  have h1 : ('_' :: c).reverse = c.reverse ++ ['_'] := by
    rw [List.reverse_cons]
  have h2 : (cmKey a b).reverse = b.reverse ++ '_' :: a.reverse := by
    rw [cmKey, List.reverse_append, List.reverse_cons, List.append_assoc]
    simp
  rw [h1, h2, keyFront a.reverse c.reverse b.reverse
    (fun h => hb (List.mem_reverse.mp h)) (fun h => hc (List.mem_reverse.mp h)),
    List.reverse_inj]

theorem cmKey_eq_diag_iff (a b c : List Char) (ha : '_' ∉ a) (hb : '_' ∉ b)
    (hc : '_' ∉ c) : cmKey a b = cmKey c c ↔ a = c ∧ b = c := by
  constructor
  · intro h
    have hpre : (c ++ ['_']).isPrefixOf (cmKey a b) = true := by
      rw [h, List.isPrefixOf_iff_prefix, cmKey]
      exact ⟨c, by simp⟩
    have hsuf : ('_' :: c).isSuffixOf (cmKey a b) = true := by
      rw [h, List.isSuffixOf_iff_suffix, cmKey]
      exact ⟨c, rfl⟩
    exact ⟨((cmKey_isPrefix a b c ha hc).mp hpre).symm,
      ((cmKey_isSuffix a b c hb hc).mp hsuf).symm⟩
  · rintro ⟨rfl, rfl⟩
    rfl

/-- Whether a matrix key is a diagonal key `` `${c}_${c}` `` for some label `c`. -/
def isDiagKey (key : List Char) : Bool :=
  key == cmKey (key.take (key.length / 2)) (key.take (key.length / 2))

theorem isDiagKey_iff (key : List Char) :
    isDiagKey key = true ↔ ∃ c, key = cmKey c c := by
  constructor
  · intro h
    exact ⟨key.take (key.length / 2), by simpa [isDiagKey] using h⟩
  · rintro ⟨c, rfl⟩
    have hlen : (cmKey c c).length = 2 * c.length + 1 := by
      simp [cmKey]
      omega
    have htake : (cmKey c c).take ((cmKey c c).length / 2) = c := by
      rw [hlen, show (2 * c.length + 1) / 2 = c.length by omega, cmKey,
        List.take_left]
    simp [isDiagKey, htake]

theorem isDiagKey_cmKey (a b : List Char) (ha : '_' ∉ a) (hb : '_' ∉ b) :
    isDiagKey (cmKey a b) = true ↔ a = b := by
  rw [isDiagKey_iff]
  constructor
  · rintro ⟨c, hkey⟩
    have hcnt : List.count '_' (cmKey a b) = List.count '_' (cmKey c c) := by
      rw [hkey]
    have hab : List.count '_' (cmKey a b) = 1 := by
      rw [cmKey, List.count_append, List.count_cons,
        List.count_eq_zero.mpr ha, List.count_eq_zero.mpr hb]
      simp
    have hcc : List.count '_' (cmKey c c) = 2 * List.count '_' c + 1 := by
      rw [cmKey, List.count_append, List.count_cons]
      simp
      omega
    have hc : '_' ∉ c := List.count_eq_zero.mp (by omega)
    have hd := (cmKey_eq_diag_iff a b c ha hb hc).mp hkey
    exact hd.1.trans hd.2.symm
  · intro h
    exact ⟨b, by rw [h]⟩

/-! ### The confusion matrix counts pairs through their joined keys -/

theorem matrix_lookup (gt preds : List (List Char)) (key : List Char) :
    lookupCount (createConfusionMatrix gt preds).matrix key
      = (gt.zip preds).countP (fun ap => cmKey ap.1 ap.2 == key) := by
  show lookupCount (counterOf [] ((gt.zip preds).map (fun ap => cmKey ap.1 ap.2))) key = _
  rw [lookupCount_counterOf, List.count_eq_countP, List.countP_map,
    show lookupCount [] key = 0 from rfl, Nat.zero_add]
  rfl

theorem matrix_sum (gt preds : List (List Char)) (P : List Char → Bool) :
    sumMatrix (createConfusionMatrix gt preds).matrix P
      = (gt.zip preds).countP (fun ap => P (cmKey ap.1 ap.2)) := by
  show sumMatrix (counterOf [] ((gt.zip preds).map (fun ap => cmKey ap.1 ap.2))) P = _
  rw [sumMatrix_counterOf, List.countP_map,
    show sumMatrix [] P = 0 from rfl, Nat.zero_add]
  rfl

/-! ### Specification-modelled per-class metrics (pair-based, from the spec) -/

def specTP (pairs : List (List Char × List Char)) (c : List Char) : Nat :=
  pairs.countP (fun ap => decide (ap.1 = c ∧ ap.2 = c))

def specFP (pairs : List (List Char × List Char)) (c : List Char) : Nat :=
  pairs.countP (fun ap => decide (c = ap.2 ∧ ¬ c = ap.1))

def specFN (pairs : List (List Char × List Char)) (c : List Char) : Nat :=
  pairs.countP (fun ap => decide (c = ap.1 ∧ ¬ c = ap.2))

def specPrecision (pairs : List (List Char × List Char)) (c : List Char) : ℚ :=
  if 0 < specTP pairs c
  then (specTP pairs c : ℚ) / ((specTP pairs c : ℚ) + (specFP pairs c : ℚ))
  else 0

def specRecall (pairs : List (List Char × List Char)) (c : List Char) : ℚ :=
  if 0 < specTP pairs c
  then (specTP pairs c : ℚ) / ((specTP pairs c : ℚ) + (specFN pairs c : ℚ))
  else 0

def specF1 (pairs : List (List Char × List Char)) (c : List Char) : ℚ :=
  if 0 < specPrecision pairs c + specRecall pairs c
  then 2 * specPrecision pairs c * specRecall pairs c
    / (specPrecision pairs c + specRecall pairs c)
  else 0

def specMacroPrecision (gt preds : List (List Char)) : ℚ :=
  ((dedupFS (gt ++ preds)).map (specPrecision (gt.zip preds))).sum
    / ((dedupFS (gt ++ preds)).length : ℚ)

def specMacroRecall (gt preds : List (List Char)) : ℚ :=
  ((dedupFS (gt ++ preds)).map (specRecall (gt.zip preds))).sum
    / ((dedupFS (gt ++ preds)).length : ℚ)

def specMacroF1 (gt preds : List (List Char)) : ℚ :=
  ((dedupFS (gt ++ preds)).map (specF1 (gt.zip preds))).sum
    / ((dedupFS (gt ++ preds)).length : ℚ)

theorem tpOf_clean (gt preds : List (List Char)) (c : List Char)
    (hgt : ∀ l ∈ gt, '_' ∉ l) (hpreds : ∀ l ∈ preds, '_' ∉ l) (hc : '_' ∉ c) :
    tpOf gt preds c = specTP (gt.zip preds) c := by
  rw [tpOf, matrix_lookup, specTP]
  refine List.countP_congr ?_
  intro ap hap
  have hm := List.of_mem_zip hap
  simp only [beq_iff_eq, decide_eq_true_eq]
  exact cmKey_eq_diag_iff ap.1 ap.2 c (hgt ap.1 hm.1) (hpreds ap.2 hm.2) hc

theorem fpOf_clean (gt preds : List (List Char)) (c : List Char)
    (hgt : ∀ l ∈ gt, '_' ∉ l) (hpreds : ∀ l ∈ preds, '_' ∉ l) (hc : '_' ∉ c) :
    fpOf gt preds c = specFP (gt.zip preds) c := by
  rw [fpOf, matrix_sum, specFP]
  refine List.countP_congr ?_
  intro ap hap
  have hm := List.of_mem_zip hap
  simp only [Bool.and_eq_true, Bool.not_eq_true', Bool.eq_false_iff, Ne,
    decide_eq_true_eq,
    cmKey_isSuffix ap.1 ap.2 c (hpreds ap.2 hm.2) hc,
    cmKey_isPrefix ap.1 ap.2 c (hgt ap.1 hm.1) hc]

theorem fnOf_clean (gt preds : List (List Char)) (c : List Char)
    (hgt : ∀ l ∈ gt, '_' ∉ l) (hpreds : ∀ l ∈ preds, '_' ∉ l) (hc : '_' ∉ c) :
    fnOf gt preds c = specFN (gt.zip preds) c := by
  rw [fnOf, matrix_sum, specFN]
  refine List.countP_congr ?_
  intro ap hap
  have hm := List.of_mem_zip hap
  simp only [Bool.and_eq_true, Bool.not_eq_true', Bool.eq_false_iff, Ne,
    decide_eq_true_eq,
    cmKey_isSuffix ap.1 ap.2 c (hpreds ap.2 hm.2) hc,
    cmKey_isPrefix ap.1 ap.2 c (hgt ap.1 hm.1) hc]

theorem precisionOf_clean (gt preds : List (List Char)) (c : List Char)
    (hgt : ∀ l ∈ gt, '_' ∉ l) (hpreds : ∀ l ∈ preds, '_' ∉ l) (hc : '_' ∉ c) :
    precisionOf gt preds c = specPrecision (gt.zip preds) c := by
  rw [precisionOf, specPrecision, tpOf_clean gt preds c hgt hpreds hc,
    fpOf_clean gt preds c hgt hpreds hc]

theorem recallOf_clean (gt preds : List (List Char)) (c : List Char)
    (hgt : ∀ l ∈ gt, '_' ∉ l) (hpreds : ∀ l ∈ preds, '_' ∉ l) (hc : '_' ∉ c) :
    recallOf gt preds c = specRecall (gt.zip preds) c := by
  rw [recallOf, specRecall, tpOf_clean gt preds c hgt hpreds hc,
    fnOf_clean gt preds c hgt hpreds hc]

theorem f1Of_clean (gt preds : List (List Char)) (c : List Char)
    (hgt : ∀ l ∈ gt, '_' ∉ l) (hpreds : ∀ l ∈ preds, '_' ∉ l) (hc : '_' ∉ c) :
    f1Of gt preds c = specF1 (gt.zip preds) c := by
  rw [f1Of, specF1, precisionOf_clean gt preds c hgt hpreds hc,
    recallOf_clean gt preds c hgt hpreds hc]

theorem macro_metrics_clean_full (gt preds : List (List Char))
    (hclean : ∀ l ∈ gt ++ preds, '_' ∉ l) :
    (dedupFS (gt ++ preds)).Nodup ∧
    (∀ x, x ∈ dedupFS (gt ++ preds) ↔ x ∈ gt ++ preds) ∧
    (computeClassificationMetrics gt preds).macro_precision
      = specMacroPrecision gt preds ∧
    (computeClassificationMetrics gt preds).macro_recall
      = specMacroRecall gt preds ∧
    (computeClassificationMetrics gt preds).macro_f1 = specMacroF1 gt preds := by
  have hgt : ∀ l ∈ gt, '_' ∉ l := fun l hl => hclean l (List.mem_append_left _ hl)
  have hpreds : ∀ l ∈ preds, '_' ∉ l :=
    fun l hl => hclean l (List.mem_append_right _ hl)
  refine ⟨dedupFS_nodup _, fun x => dedupFS_mem x _, ?_, ?_, ?_⟩
  · simp only [computeClassificationMetrics, specMacroPrecision]
    congr 1
    refine congrArg List.sum (List.map_congr_left ?_)
    intro c hc
    exact precisionOf_clean gt preds c hgt hpreds
      (hclean c ((dedupFS_mem c _).mp hc))
  · simp only [computeClassificationMetrics, specMacroRecall]
    congr 1
    refine congrArg List.sum (List.map_congr_left ?_)
    intro c hc
    exact recallOf_clean gt preds c hgt hpreds
      (hclean c ((dedupFS_mem c _).mp hc))
  · simp only [computeClassificationMetrics, specMacroF1]
    congr 1
    refine congrArg List.sum (List.map_congr_left ?_)
    intro c hc
    exact f1Of_clean gt preds c hgt hpreds
      (hclean c ((dedupFS_mem c _).mp hc))

/-- C5: with '_'-free labels, the code's macro precision/recall/F1 are the
unweighted averages, over exactly the deduplicated union of actual and
predicted labels, of the pair-based per-class metrics in which a class with
zero true positives contributes 0. -/
theorem macro_metrics_over_union (gt preds : List (List Char))
    (hclean : ∀ l ∈ gt ++ preds, '_' ∉ l) :
    (dedupFS (gt ++ preds)).Nodup ∧
    (∀ x, x ∈ dedupFS (gt ++ preds) ↔ x ∈ gt ++ preds) ∧
    (computeClassificationMetrics gt preds).macro_precision
      = specMacroPrecision gt preds ∧
    (computeClassificationMetrics gt preds).macro_recall
      = specMacroRecall gt preds ∧
    (computeClassificationMetrics gt preds).macro_f1 = specMacroF1 gt preds :=
  macro_metrics_clean_full gt preds hclean

/-- C5 witness: the amended macro-metric equalities at a concrete '_'-free
input. -/
theorem macro_metrics_over_union_witness :
    (∀ l ∈ ([['a'], ['b']] : List (List Char)) ++ [['a'], ['c']], '_' ∉ l) ∧
    ((dedupFS (([['a'], ['b']] : List (List Char)) ++ [['a'], ['c']])).Nodup ∧
     (∀ x, x ∈ dedupFS (([['a'], ['b']] : List (List Char)) ++ [['a'], ['c']])
        ↔ x ∈ ([['a'], ['b']] : List (List Char)) ++ [['a'], ['c']]) ∧
     (computeClassificationMetrics [['a'], ['b']] [['a'], ['c']]).macro_precision
       = specMacroPrecision [['a'], ['b']] [['a'], ['c']] ∧
     (computeClassificationMetrics [['a'], ['b']] [['a'], ['c']]).macro_recall
       = specMacroRecall [['a'], ['b']] [['a'], ['c']] ∧
     (computeClassificationMetrics [['a'], ['b']] [['a'], ['c']]).macro_f1
       = specMacroF1 [['a'], ['b']] [['a'], ['c']]) :=
  ⟨by decide, macro_metrics_over_union [['a'], ['b']] [['a'], ['c']] (by decide)⟩

def gtC5 : List (List Char) := [['a'], ['a', '_', 'b']]

def predsC5 : List (List Char) := [['b', '_', 'a', '_', 'b'], ['x']]

/-- C5 counterexample: with labels containing '_', joined matrix keys
collide ("a" predicted as "b_a_b" produces the key "a_b_a_b", read back as a
true positive of class "a_b"), so the code's macro precision is 1/4 while
the pair-based macro precision over the same union is 0. -/
theorem macro_precision_collision_counterexample :
    (computeClassificationMetrics gtC5 predsC5).macro_precision = 1 / 4 ∧
    specMacroPrecision gtC5 predsC5 = 0 ∧
    (computeClassificationMetrics gtC5 predsC5).macro_precision
      ≠ specMacroPrecision gtC5 predsC5 := by
  have hU : dedupFS (gtC5 ++ predsC5)
      = [['a'], ['a', '_', 'b'], ['b', '_', 'a', '_', 'b'], ['x']] := by decide
  have h1 : tpOf gtC5 predsC5 ['a'] = 0 := by decide
  have h2 : tpOf gtC5 predsC5 ['a', '_', 'b'] = 1 := by decide
  have h3 : fpOf gtC5 predsC5 ['a', '_', 'b'] = 0 := by decide
  have h4 : tpOf gtC5 predsC5 ['b', '_', 'a', '_', 'b'] = 0 := by decide
  have h5 : tpOf gtC5 predsC5 ['x'] = 0 := by decide
  have p1 : precisionOf gtC5 predsC5 ['a'] = 0 := by
    rw [precisionOf, h1]
    norm_num
  have p2 : precisionOf gtC5 predsC5 ['a', '_', 'b'] = 1 := by
    rw [precisionOf, h2, h3]
    norm_num
  have p4 : precisionOf gtC5 predsC5 ['b', '_', 'a', '_', 'b'] = 0 := by
    rw [precisionOf, h4]
    norm_num
  have p5 : precisionOf gtC5 predsC5 ['x'] = 0 := by
    rw [precisionOf, h5]
    norm_num
  have hcode : (computeClassificationMetrics gtC5 predsC5).macro_precision
      = 1 / 4 := by
    simp only [computeClassificationMetrics]
    rw [hU]
    simp only [List.map_cons, List.map_nil, List.sum_cons, List.sum_nil,
      List.length_cons, List.length_nil]
    rw [p1, p2, p4, p5]
    norm_num
  have q1 : specTP (gtC5.zip predsC5) ['a'] = 0 := by decide
  have q2 : specTP (gtC5.zip predsC5) ['a', '_', 'b'] = 0 := by decide
  have q3 : specTP (gtC5.zip predsC5) ['b', '_', 'a', '_', 'b'] = 0 := by decide
  have q4 : specTP (gtC5.zip predsC5) ['x'] = 0 := by decide
  have s1 : specPrecision (gtC5.zip predsC5) ['a'] = 0 := by
    rw [specPrecision, q1]
    norm_num
  have s2 : specPrecision (gtC5.zip predsC5) ['a', '_', 'b'] = 0 := by
    rw [specPrecision, q2]
    norm_num
  have s3 : specPrecision (gtC5.zip predsC5) ['b', '_', 'a', '_', 'b'] = 0 := by
    rw [specPrecision, q3]
    norm_num
  have s4 : specPrecision (gtC5.zip predsC5) ['x'] = 0 := by
    rw [specPrecision, q4]
    norm_num
  have hspec : specMacroPrecision gtC5 predsC5 = 0 := by
    rw [specMacroPrecision, hU]
    simp only [List.map_cons, List.map_nil, List.sum_cons, List.sum_nil,
      List.length_cons, List.length_nil]
    rw [s1, s2, s3, s4]
    norm_num
  exact ⟨hcode, hspec, by rw [hcode, hspec]; norm_num⟩

/-! ## C6: confusion-matrix sums -/

theorem confusion_sums_full (gt preds : List (List Char))
    (hlen : gt.length = preds.length) :
    sumMatrix (createConfusionMatrix gt preds).matrix (fun _ => true)
      = (createConfusionMatrix gt preds).total ∧
    (createConfusionMatrix gt preds).correct
      = (gt.zip preds).countP (fun ap => decide (ap.1 = ap.2)) ∧
    ((∀ l ∈ gt ++ preds, '_' ∉ l) →
      sumMatrix (createConfusionMatrix gt preds).matrix isDiagKey
        = (createConfusionMatrix gt preds).correct ∧
      (sumMatrix (createConfusionMatrix gt preds).matrix isDiagKey : ℚ)
        = ((createConfusionMatrix gt preds).correct : ℚ)
            / ((createConfusionMatrix gt preds).total : ℚ)
            * ((createConfusionMatrix gt preds).total : ℚ)) := by
  refine ⟨?_, rfl, ?_⟩
  · rw [matrix_sum]
    show (gt.zip preds).countP (fun _ => true) = gt.length
    simp [List.countP_true, List.length_zip, hlen]
  · intro hclean
    have hgt : ∀ l ∈ gt, '_' ∉ l := fun l hl => hclean l (List.mem_append_left _ hl)
    have hpreds : ∀ l ∈ preds, '_' ∉ l :=
      fun l hl => hclean l (List.mem_append_right _ hl)
    have hd : sumMatrix (createConfusionMatrix gt preds).matrix isDiagKey
        = (gt.zip preds).countP (fun ap => decide (ap.1 = ap.2)) := by
      rw [matrix_sum]
      refine List.countP_congr ?_
      intro ap hap
      have hm := List.of_mem_zip hap
      simp only [decide_eq_true_eq]
      exact isDiagKey_cmKey ap.1 ap.2 (hgt _ hm.1) (hpreds _ hm.2)
    refine ⟨hd, ?_⟩
    by_cases h0 : gt.length = 0
    · have hnil : gt = [] := List.length_eq_zero.mp h0
      subst hnil
      simp [createConfusionMatrix, sumMatrix, counterOf]
    · rw [hd,
        show (createConfusionMatrix gt preds).correct
          = (gt.zip preds).countP (fun ap => decide (ap.1 = ap.2)) from rfl,
        show (createConfusionMatrix gt preds).total = gt.length from rfl,
        div_mul_cancel₀ _ (Nat.cast_ne_zero.mpr h0)]

/-- C6: the confusion matrix's entry sum equals the number of compared pairs
(`total`), `correct` counts the pairs with equal labels, and — for '_'-free
labels — the sum over the diagonal keys equals `correct`, hence equals
`accuracy * total` exactly. -/
theorem confusion_matrix_sums (gt preds : List (List Char))
    (hlen : gt.length = preds.length) :
    sumMatrix (createConfusionMatrix gt preds).matrix (fun _ => true)
      = (createConfusionMatrix gt preds).total ∧
    (createConfusionMatrix gt preds).correct
      = (gt.zip preds).countP (fun ap => decide (ap.1 = ap.2)) ∧
    ((∀ l ∈ gt ++ preds, '_' ∉ l) →
      sumMatrix (createConfusionMatrix gt preds).matrix isDiagKey
        = (createConfusionMatrix gt preds).correct ∧
      (sumMatrix (createConfusionMatrix gt preds).matrix isDiagKey : ℚ)
        = ((createConfusionMatrix gt preds).correct : ℚ)
            / ((createConfusionMatrix gt preds).total : ℚ)
            * ((createConfusionMatrix gt preds).total : ℚ)) :=
  confusion_sums_full gt preds hlen

/-- C6 witness: the confusion-matrix sum identities at a concrete input. -/
theorem confusion_matrix_sums_witness :
    (([['a'], ['b']] : List (List Char)).length
      = ([['a'], ['c']] : List (List Char)).length) ∧
    (sumMatrix (createConfusionMatrix [['a'], ['b']] [['a'], ['c']]).matrix
        (fun _ => true)
      = (createConfusionMatrix [['a'], ['b']] [['a'], ['c']]).total ∧
    (createConfusionMatrix [['a'], ['b']] [['a'], ['c']]).correct
      = (([['a'], ['b']] : List (List Char)).zip [['a'], ['c']]).countP
          (fun ap => decide (ap.1 = ap.2)) ∧
    ((∀ l ∈ ([['a'], ['b']] : List (List Char)) ++ [['a'], ['c']], '_' ∉ l) →
      sumMatrix (createConfusionMatrix [['a'], ['b']] [['a'], ['c']]).matrix
          isDiagKey
        = (createConfusionMatrix [['a'], ['b']] [['a'], ['c']]).correct ∧
      (sumMatrix (createConfusionMatrix [['a'], ['b']] [['a'], ['c']]).matrix
          isDiagKey : ℚ)
        = ((createConfusionMatrix [['a'], ['b']] [['a'], ['c']]).correct : ℚ)
            / ((createConfusionMatrix [['a'], ['b']] [['a'], ['c']]).total : ℚ)
            * ((createConfusionMatrix [['a'], ['b']] [['a'], ['c']]).total : ℚ))) :=
  ⟨by decide, confusion_matrix_sums [['a'], ['b']] [['a'], ['c']] (by decide)⟩

/-- C6 counterexample: with labels containing '_', a diagonal key can arise
from a non-matching pair (actual "a", predicted "b_a_b" gives the diagonal
key "a_b_a_b"), so the diagonal sum is 1 while no prediction is correct and
`accuracy * total = 0`. -/
theorem confusion_diagonal_counterexample :
    sumMatrix (createConfusionMatrix [['a']] [['b', '_', 'a', '_', 'b']]).matrix
        isDiagKey = 1 ∧
    (createConfusionMatrix [['a']] [['b', '_', 'a', '_', 'b']]).correct = 0 ∧
    (sumMatrix (createConfusionMatrix [['a']] [['b', '_', 'a', '_', 'b']]).matrix
        isDiagKey : ℚ)
      ≠ ((createConfusionMatrix [['a']] [['b', '_', 'a', '_', 'b']]).correct : ℚ)
          / ((createConfusionMatrix [['a']] [['b', '_', 'a', '_', 'b']]).total : ℚ)
          * ((createConfusionMatrix [['a']] [['b', '_', 'a', '_', 'b']]).total : ℚ) := by
  refine ⟨by decide, by decide, ?_⟩
  rw [show sumMatrix
        (createConfusionMatrix [['a']] [['b', '_', 'a', '_', 'b']]).matrix
        isDiagKey = 1 from by decide,
    show (createConfusionMatrix [['a']] [['b', '_', 'a', '_', 'b']]).correct = 0
      from by decide,
    show (createConfusionMatrix [['a']] [['b', '_', 'a', '_', 'b']]).total = 1
      from by decide]
  norm_num

/-! ## `majorityVote` (utils.js) and `predictFromId` (visualizer.js)

JS object keys are enumerated by `Object.keys` with canonical array-index
keys first, in ascending numeric order, followed by the remaining string
keys in insertion order. -/

/-- A JS string of decimal digits read as a number. -/
def digitsToNat (s : List Char) : Nat :=
  s.foldl (fun n c => 10 * n + (c.toNat - 48)) 0

/-- Whether a JS string is a canonical array-index property key: the
canonical decimal representation of an integer below `2^32 - 1`. -/
def isArrayIdxKey (s : List Char) : Bool :=
  !s.isEmpty && s.all (fun c => decide ('0' ≤ c) && decide (c ≤ '9'))
    && (s.length == 1 || s.head? != some '0')
    && digitsToNat s < 4294967295

/-- Stable insertion into an ascending list, ordered by numeric value. -/
def insertIdx (x : List Char) : List (List Char) → List (List Char)
  | [] => [x]
  | y :: t =>
    if digitsToNat x < digitsToNat y then x :: y :: t else y :: insertIdx x t

def sortIdx : List (List Char) → List (List Char)
  | [] => []
  | x :: t => insertIdx x (sortIdx t)

/-- `Object.keys` ordering of a JS object's keys. -/
def jsKeysOrder (keys : List (List Char)) : List (List Char) :=
  sortIdx (keys.filter isArrayIdxKey) ++ keys.filter (fun k => !isArrayIdxKey k)

structure Vote where
  label : Option (List Char)
  count : Int
  counts : List (List Char × Nat)
deriving DecidableEq

/-- `majorityVote(items)` from `utils.js`: tally into a counts object, then
scan `Object.keys(counts)` keeping the first key whose count strictly
exceeds the running maximum (initially -1). -/
def majorityVote (items : List (List Char)) : Vote :=
  let counts := counterOf [] items
  let mv := (jsKeysOrder (counts.map Prod.fst)).foldl
    (fun acc k =>
      if acc.2 < (lookupCount counts k : Int) then (some k, (lookupCount counts k : Int))
      else acc)
    (none, -1)
  ⟨mv.1, mv.2, counts⟩

structure Row where
  id : List Char
  embedding : List ℚ
  metadata : List (List Char × List Char)
deriving DecidableEq

/-- `new Map(arr.map(x => [x.id, x]))` followed by `.get(id)`: with
duplicate ids the last row wins. -/
def byIdGet (rows : List Row) (i : List Char) : Option Row :=
  rows.foldl (fun acc r => if r.id = i then some r else acc) none

/-- `dot(a, b)` from `utils.js` (embedding vectors of equal length). -/
def dot (a b : List ℚ) : ℚ :=
  (a.zip b).foldl (fun s p => s + p.1 * p.2) 0

/-- `cosineSimilarity(a, b)` (expects normalized vectors). -/
def cosineSimilarity (a b : List ℚ) : ℚ := dot a b

structure Sim where
  id : List Char
  metadata : List (List Char × List Char)
  score : ℚ
deriving DecidableEq

structure Prediction where
  label : Option (List Char)
  count : Option Int
  counts : Option (List (List Char × Nat))
deriving DecidableEq

structure PredictResult where
  topK : List Sim
  prediction : Prediction
deriving DecidableEq

/-- `sims.sort((a, b) => b.score - a.score)`: stable descending sort. -/
def insertDesc (x : Sim) : List Sim → List Sim
  | [] => [x]
  | y :: t => if y.score ≤ x.score then x :: y :: t else y :: insertDesc x t

def sortDesc : List Sim → List Sim
  | [] => []
  | x :: t => insertDesc x (sortDesc t)

/-- `topK.map(t => t.metadata[field]).filter(Boolean)`: a missing field
(`undefined`) and the empty string are falsy and dropped. -/
def truthyLookup (md : List (List Char × List Char)) (f : List Char) :
    Option (List Char) :=
  match md.lookup f with
  | none => none
  | some v => if v = [] then none else some v

/-- The `sims` array of `predictFromId`: all other rows scored against the
query embedding. -/
def simsOf (i : List Char) (rows : List Row) (q : List ℚ) : List Sim :=
  (rows.filter (fun r => r.id ≠ i)).map
    (fun r => Sim.mk r.id r.metadata (cosineSimilarity q r.embedding))

/-- `labels.length ? majorityVote(labels) : { label: null }`: when there are
no labels the returned object has only a `label` field (`count` and
`counts` are absent). -/
def predictionOf (labels : List (List Char)) : Prediction :=
  if labels.isEmpty then Prediction.mk none none none
  else
    Prediction.mk (majorityVote labels).label (some (majorityVote labels).count)
      (some (majorityVote labels).counts)

/-- `predictFromId(id, embeddingsObj, k, field)` from `visualizer.js`. -/
def predictFromId (i : List Char) (rows : List Row) (k : Nat)
    (f : List Char) : Except (List Char) PredictResult :=
  match byIdGet rows i with
  | none => Except.error ("id ".toList ++ i ++ " not found in embeddings".toList)
  | some entry =>
    Except.ok
      ⟨(sortDesc (simsOf i rows entry.embedding)).take k,
       predictionOf (((sortDesc (simsOf i rows entry.embedding)).take k).filterMap
         (fun t => truthyLookup t.metadata f))⟩

/-- C8: when no top-K neighbor has the requested metadata field, the
returned prediction is the bare `{ label: null }` object — the `count` and
`counts` fields are absent, not `count: 0`. -/
theorem predict_missing_field (i : List Char) (rows : List Row) (k : Nat)
    (f : List Char) (res : PredictResult)
    (hok : predictFromId i rows k f = Except.ok res)
    (hfield : ∀ t ∈ res.topK, t.metadata.lookup f = none) :
    res.prediction = Prediction.mk none none none := by
  rw [predictFromId] at hok
  cases hb : byIdGet rows i with
  | none =>
    rw [hb] at hok
    simp at hok
  | some entry =>
    rw [hb] at hok
    simp only [Except.ok.injEq] at hok
    subst hok
    have hlab : ((sortDesc (simsOf i rows entry.embedding)).take k).filterMap
        (fun t => truthyLookup t.metadata f) = [] := by
      refine List.filterMap_eq_nil_iff.mpr ?_
      intro t ht
      have := hfield t ht
      simp [truthyLookup, this]
    show predictionOf _ = _
    rw [hlab, predictionOf]
    rfl

def rowsC8 : List Row := [Row.mk ['a'] [] [], Row.mk ['b'] [] []]

/-- C8 witness: the amended conclusion at a concrete query whose single
neighbor lacks the field. -/
theorem predict_missing_field_witness :
    (predictFromId ['a'] rowsC8 5 ['f']
        = Except.ok (PredictResult.mk [Sim.mk ['b'] [] 0]
            (Prediction.mk none none none))) ∧
    (∀ t ∈ (PredictResult.mk [Sim.mk ['b'] [] 0]
        (Prediction.mk none none none)).topK, t.metadata.lookup ['f'] = none) ∧
    (PredictResult.mk [Sim.mk ['b'] [] 0]
        (Prediction.mk none none none)).prediction
      = Prediction.mk none none none :=
  ⟨rfl, by simp, predict_missing_field ['a'] rowsC8 5 ['f'] _ rfl (by simp)⟩

/-- C8 counterexample: the prediction returned for a query with no labeled
neighbors has no `count` field at all (`none`), not `count: 0` as claimed. -/
theorem predict_missing_count_counterexample :
    ∃ res, predictFromId ['a'] rowsC8 5 ['f'] = Except.ok res ∧
      res.prediction.label = none ∧ res.prediction.count = none ∧
      res.prediction.count ≠ some 0 :=
  ⟨PredictResult.mk [Sim.mk ['b'] [] 0] (Prediction.mk none none none),
    rfl, rfl, rfl, by simp⟩

/-! ### The keys of a counts object are the first-seen distinct items -/

theorem bump_keys (k : List Char) :
    ∀ m : List (List Char × Nat),
      (bump k m).map Prod.fst
        = if k ∈ m.map Prod.fst then m.map Prod.fst else m.map Prod.fst ++ [k]
  | [] => by simp [bump]
  | (k₀, n) :: t => by
    by_cases h0 : k₀ = k
    · simp [bump, h0]
    · simp only [bump, if_neg h0, List.map_cons, bump_keys k t]
      by_cases hm : k ∈ t.map Prod.fst
      · rw [if_pos hm, if_pos (List.mem_cons_of_mem _ hm)]
      · rw [if_neg hm, if_neg (by simp [hm, Ne.symm h0]), List.cons_append]

theorem dedupFSAux_congr :
    ∀ (t s₁ s₂ : List (List Char)), (∀ x, x ∈ s₁ ↔ x ∈ s₂) →
      dedupFSAux s₁ t = dedupFSAux s₂ t
  | [], _, _, _ => rfl
  | x :: t, s₁, s₂, h => by
    rw [dedupFSAux, dedupFSAux]
    by_cases hx : x ∈ s₁
    · rw [if_pos hx, if_pos ((h x).mp hx), dedupFSAux_congr t s₁ s₂ h]
    · rw [if_neg hx, if_neg (fun c => hx ((h x).mpr c)),
        dedupFSAux_congr t (x :: s₁) (x :: s₂) (fun y => by simp [h y])]

theorem counterOf_keys :
    ∀ (keys : List (List Char)) (m : List (List Char × Nat)),
      (counterOf m keys).map Prod.fst
        = m.map Prod.fst ++ dedupFSAux (m.map Prod.fst) keys
  | [], m => by simp [counterOf, dedupFSAux]
  | k :: t, m => by
    rw [show counterOf m (k :: t) = counterOf (bump k m) t from rfl,
      counterOf_keys t (bump k m), bump_keys]
    by_cases hm : k ∈ m.map Prod.fst
    · rw [if_pos hm,
        show dedupFSAux (m.map Prod.fst) (k :: t)
          = dedupFSAux (m.map Prod.fst) t from by rw [dedupFSAux, if_pos hm]]
    · rw [if_neg hm,
        show dedupFSAux (m.map Prod.fst) (k :: t)
          = k :: dedupFSAux (k :: m.map Prod.fst) t from by
            rw [dedupFSAux, if_neg hm],
        dedupFSAux_congr t (m.map Prod.fst ++ [k]) (k :: m.map Prod.fst)
          (fun y => by simp [or_comm]),
        List.append_assoc, List.singleton_append]

/-- The counts-object keys of `majorityVote` are the labels in first-seen
order. -/
theorem counterOf_keys_dedup (items : List (List Char)) :
    (counterOf [] items).map Prod.fst = dedupFS items := by
  rw [counterOf_keys items [], dedupFS]
  rfl

/-! ### The key scan keeps the first key attaining the maximal count -/

theorem pick_fold_spec (v : List Char → Int) :
    ∀ (ks : List (List Char)) (m₀ : List Char),
      ∃ m, ks.foldl
          (fun acc k => if acc.2 < v k then (some k, v k) else acc)
          ((some m₀ : Option (List Char)), v m₀) = (some m, v m) ∧
        (∀ k ∈ m₀ :: ks, v k ≤ v m) ∧
        ∃ p q, m₀ :: ks = p ++ m :: q ∧ ∀ l ∈ p, v l < v m
  | [], m₀ => by
    refine ⟨m₀, rfl, ?_, [], [], rfl, by simp⟩
    intro k hk
    rw [List.mem_singleton.mp hk]
  | k :: t, m₀ => by
    rw [List.foldl_cons]
    by_cases h : v m₀ < v k
    · rw [show (if ((some m₀ : Option (List Char)), v m₀).2 < v k
          then ((some k : Option (List Char)), v k) else (some m₀, v m₀))
          = (some k, v k) from if_pos h]
      obtain ⟨m, hm, hmax, p, q, hdec, hlt⟩ := pick_fold_spec v t k
      have hkm : v k ≤ v m := hmax k (List.mem_cons_self _ _)
      refine ⟨m, hm, ?_, m₀ :: p, q, by rw [List.cons_append, ← hdec], ?_⟩
      · intro x hx
        rcases List.mem_cons.mp hx with hx | hx
        · rw [hx]
          exact le_of_lt (lt_of_lt_of_le h hkm)
        · exact hmax x hx
      · intro l hl
        rcases List.mem_cons.mp hl with hl | hl
        · rw [hl]
          exact lt_of_lt_of_le h hkm
        · exact hlt l hl
    · rw [show (if ((some m₀ : Option (List Char)), v m₀).2 < v k
          then ((some k : Option (List Char)), v k) else (some m₀, v m₀))
          = (some m₀, v m₀) from if_neg h]
      obtain ⟨m, hm, hmax, p, q, hdec, hlt⟩ := pick_fold_spec v t m₀
      have h0m : v m₀ ≤ v m := hmax m₀ (List.mem_cons_self _ _)
      have hk' : v k ≤ v m := le_trans (le_of_not_lt h) h0m
      refine ⟨m, hm, ?_, ?_⟩
      · intro x hx
        rcases List.mem_cons.mp hx with hx | hx
        · rw [hx]
          exact h0m
        rcases List.mem_cons.mp hx with hx | hx
        · rw [hx]
          exact hk'
        · exact hmax x (List.mem_cons_of_mem _ hx)
      · cases p with
        | nil =>
          rw [List.nil_append] at hdec
          injection hdec with h1 h2
          exact ⟨[], k :: t, by rw [List.nil_append, h1], by simp⟩
        | cons a p₂ =>
          rw [List.cons_append] at hdec
          injection hdec with h1 h2
          have hm0p : v m₀ < v m := by
            have := hlt a (List.mem_cons_self _ _)
            rw [← h1] at this
            exact this
          refine ⟨m₀ :: k :: p₂, q, ?_, ?_⟩
          · rw [List.cons_append, List.cons_append, h2]
          · intro l hl
            rcases List.mem_cons.mp hl with hl | hl
            · rw [hl]
              exact hm0p
            rcases List.mem_cons.mp hl with hl | hl
            · rw [hl]
              exact lt_of_le_of_lt (le_of_not_lt h) hm0p
            · exact hlt l (h1 ▸ List.mem_cons_of_mem a hl)

theorem majorityVote_clean_full (labels : List (List Char))
    (hne : labels ≠ [])
    (hidx : ∀ l ∈ labels, isArrayIdxKey l = false) :
    (majorityVote labels).counts = counterOf [] labels ∧
    (∀ l, lookupCount (majorityVote labels).counts l = labels.count l) ∧
    ∃ m, (majorityVote labels).label = some m ∧
      (majorityVote labels).count = (labels.count m : Int) ∧
      m ∈ labels ∧
      (∀ l ∈ labels, labels.count l ≤ labels.count m) ∧
      ∃ p q, dedupFS labels = p ++ m :: q ∧
        ∀ l ∈ p, labels.count l < labels.count m := by
  have hv : ∀ l, lookupCount (counterOf [] labels) l = labels.count l := by
    intro l
    rw [lookupCount_counterOf]
    simp [lookupCount]
  have hflt1 : (dedupFS labels).filter isArrayIdxKey = [] := by
    refine List.filter_eq_nil_iff.mpr ?_
    intro x hx
    rw [hidx x ((dedupFS_mem x labels).mp hx)]
    simp
  have hflt2 : (dedupFS labels).filter (fun k => !isArrayIdxKey k)
      = dedupFS labels := by
    refine List.filter_eq_self.mpr ?_
    intro x hx
    rw [hidx x ((dedupFS_mem x labels).mp hx)]
    rfl
  have horder : jsKeysOrder ((counterOf [] labels).map Prod.fst)
      = dedupFS labels := by
    rw [counterOf_keys_dedup, jsKeysOrder, hflt1, hflt2]
    rfl
  obtain ⟨l₀, t₀, hl⟩ : ∃ a t, labels = a :: t := by
    cases labels with
    | nil => exact absurd rfl hne
    | cons a t => exact ⟨a, t, rfl⟩
  have hmem0 : l₀ ∈ dedupFS labels :=
    (dedupFS_mem l₀ labels).mpr (by rw [hl]; exact List.mem_cons_self _ _)
  obtain ⟨k₀, kt, hk⟩ : ∃ a t, dedupFS labels = a :: t := by
    cases hd : dedupFS labels with
    | nil =>
      rw [hd] at hmem0
      cases hmem0
    | cons a t => exact ⟨a, t, rfl⟩
  have hk0mem : k₀ ∈ labels :=
    (dedupFS_mem k₀ labels).mp (by rw [hk]; exact List.mem_cons_self _ _)
  have hk0pos : 0 < labels.count k₀ := List.count_pos_iff.mpr hk0mem
  have hstep : ((none : Option (List Char)), (-1 : Int)).2
      < (lookupCount (counterOf [] labels) k₀ : Int) := by
    show (-1 : Int) < _
    rw [hv k₀]
    omega
  obtain ⟨m, hm, hmax, p, q, hdec, hlt⟩ :=
    pick_fold_spec (fun k => (lookupCount (counterOf [] labels) k : Int)) kt k₀
  have hfold : (jsKeysOrder ((counterOf [] labels).map Prod.fst)).foldl
      (fun acc k => if acc.2 < (lookupCount (counterOf [] labels) k : Int)
        then (some k, (lookupCount (counterOf [] labels) k : Int)) else acc)
      ((none : Option (List Char)), (-1 : Int))
      = (some m, (lookupCount (counterOf [] labels) m : Int)) := by
    rw [horder, hk, List.foldl_cons, if_pos hstep]
    exact hm
  have hres : majorityVote labels
      = ⟨some m, (lookupCount (counterOf [] labels) m : Int),
          counterOf [] labels⟩ := by
    simp only [majorityVote]
    rw [hfold]
  refine ⟨by rw [hres], ?_, m, by rw [hres], ?_, ?_, ?_, ?_⟩
  · intro l
    rw [hres]
    exact hv l
  · rw [hres, hv m]
  · have hmk : m ∈ k₀ :: kt := by
      rw [hdec]
      exact List.mem_append_right _ (List.mem_cons_self _ _)
    exact (dedupFS_mem m labels).mp (by rw [hk]; exact hmk)
  · intro l hl
    have hl' : l ∈ k₀ :: kt := by
      rw [← hk]
      exact (dedupFS_mem l labels).mpr hl
    have h2 : (lookupCount (counterOf [] labels) l : Int)
        ≤ (lookupCount (counterOf [] labels) m : Int) := hmax l hl'
    rw [hv l, hv m] at h2
    exact_mod_cast h2
  · refine ⟨p, q, by rw [hk]; exact hdec, ?_⟩
    intro l hl
    have h2 : (lookupCount (counterOf [] labels) l : Int)
        < (lookupCount (counterOf [] labels) m : Int) := hlt l hl
    rw [hv l, hv m] at h2
    exact_mod_cast h2

/-- C9: for a nonempty list of tallied labels none of which is an
array-index key, `majorityVote` exposes the full counts mapping (counting
every label), and returns a label `m` occurring in the list whose tally is
maximal, together with exactly that tally; among the labels of maximal
tally it returns the earliest in first-seen order (every label seen before
`m` has a strictly smaller tally). -/
theorem majority_vote_first_seen (labels : List (List Char))
    (hne : labels ≠ [])
    (hidx : ∀ l ∈ labels, isArrayIdxKey l = false) :
    (majorityVote labels).counts = counterOf [] labels ∧
    (∀ l, lookupCount (majorityVote labels).counts l = labels.count l) ∧
    ∃ m, (majorityVote labels).label = some m ∧
      (majorityVote labels).count = (labels.count m : Int) ∧
      m ∈ labels ∧
      (∀ l ∈ labels, labels.count l ≤ labels.count m) ∧
      ∃ p q, dedupFS labels = p ++ m :: q ∧
        ∀ l ∈ p, labels.count l < labels.count m :=
  majorityVote_clean_full labels hne hidx

/-- C9 witness: the majority-vote characterization at a concrete label
list. -/
theorem majority_vote_first_seen_witness :
    (([['a'], ['b'], ['a']] : List (List Char)) ≠ [] ∧
     (∀ l ∈ ([['a'], ['b'], ['a']] : List (List Char)),
        isArrayIdxKey l = false)) ∧
    ((majorityVote [['a'], ['b'], ['a']]).counts
        = counterOf [] [['a'], ['b'], ['a']] ∧
     (∀ l, lookupCount (majorityVote [['a'], ['b'], ['a']]).counts l
        = List.count l [['a'], ['b'], ['a']]) ∧
     ∃ m, (majorityVote [['a'], ['b'], ['a']]).label = some m ∧
       (majorityVote [['a'], ['b'], ['a']]).count
          = (List.count m [['a'], ['b'], ['a']] : Int) ∧
       m ∈ ([['a'], ['b'], ['a']] : List (List Char)) ∧
       (∀ l ∈ ([['a'], ['b'], ['a']] : List (List Char)),
          List.count l [['a'], ['b'], ['a']]
            ≤ List.count m [['a'], ['b'], ['a']]) ∧
       ∃ p q, dedupFS [['a'], ['b'], ['a']] = p ++ m :: q ∧
         ∀ l ∈ p, List.count l [['a'], ['b'], ['a']]
            < List.count m [['a'], ['b'], ['a']]) :=
  ⟨⟨by decide, by decide⟩,
    majority_vote_first_seen [['a'], ['b'], ['a']] (by decide) (by decide)⟩

/-- C9 counterexample: with the numeric labels "9" then "2" (equal tallies),
`Object.keys` enumerates the counts object in ascending numeric order, so
the vote returns "2" although "9" is first-seen in the sequence. -/
theorem majority_vote_tiebreak_counterexample :
    (majorityVote [['9'], ['2']]).label = some ['2'] ∧
    List.count ['9'] [['9'], ['2']] = List.count ['2'] [['9'], ['2']] ∧
    List.indexOf ['9'] [['9'], ['2']] < List.indexOf ['2'] [['9'], ['2']] := by
  refine ⟨by decide, by decide, by decide⟩

end MMR

